import Mathlib

/-!
A shallow embedding of `configurator.py` (the `denchii/configurator` repository)
together with proofs about its mapping↔node transcoder, its path normalizer and
its encrypted persistence operations.

Conventions of the embedding:

* Python/JSON values are modelled by the inductive type `Value`.  Python `dict`s
  are association lists in insertion order (a Python dict's keys are unique; the
  `rv.update({k: v})` accumulation used throughout the source is modelled
  faithfully by `aUpdate`, which overwrites in place or appends).
* `pathlib` operations (`Path(s).expanduser().resolve().as_posix()`) are
  modelled lexically over a symlink-free POSIX filesystem: `resolve` prepends
  the current working directory to a relative path and then eliminates `.` and
  `..` components textually.  The home directory (`~`) and the working
  directory are parameters (`Env`).  `Path(v)` raises `TypeError` unless `v`
  is a string and `expanduser` raises `RuntimeError` on `~user` forms, exactly
  as in the source's runtime.
* Fallible code returns `Except Err`; a returned pair `(state, some e)` models
  an exception raised after the partial mutations already performed.
-/

inductive Err where
  | typeError
  | runtimeError
  | fileNotFound
  | unsupportedFormat
  | parseError
  | attrError
  | decryptionFailure
  | fileExists
  | isADirectory
deriving Repr, DecidableEq

/-! ## Character-list path model

`Path` objects are modelled by their list of components (each a `List Char`).
`splitChars` is splitting a string on `/`; pathlib drops empty components and
single dots when parsing, which is the `filter` in `parsePath`. -/

def splitChars (sep : Char) : List Char → List (List Char)
  | [] => [[]]
  | c :: cs =>
    match splitChars sep cs with
    | [] => [[]]
    | g :: gs => if c = sep then [] :: g :: gs else (c :: g) :: gs

/-- Join path components with `/` (the inverse of `splitChars '/'`). -/
def joinComps : List (List Char) → List Char
  | [] => []
  | [g] => g
  | g :: gs => g ++ '/' :: joinComps gs

/-- No `/` occurs among the characters of a component. -/
def noSlash : List Char → Bool
  | [] => true
  | c :: t => !(c == '/') && noSlash t

/-- A well-formed path component: nonempty, not `.` or `..`, and slash-free.
Components of a fully resolved absolute path all satisfy this. -/
def compWF (c : List Char) : Bool :=
  !c.isEmpty && !(c == ['.']) && !(c == ['.', '.']) && noSlash c

/-- Parse a path string the way `pathlib.PurePosixPath` does: absoluteness is a
leading `/`; empty components and `.` components are dropped at parse time. -/
def parsePath (l : List Char) : Bool × List (List Char) :=
  (l.head? == some '/', (splitChars '/' l).filter (fun c => !c.isEmpty && !(c == ['.'])))

/-- `Path.resolve`'s lexical `..` elimination: a `..` pops the last component
(at the root it is absorbed, as `/..` resolves to `/`). -/
def normComps (l : List (List Char)) : List (List Char) :=
  l.foldl (fun acc c => if c == ['.', '.'] then acc.dropLast else acc ++ [c]) []

/-- The home and current-working directories backing `Path.home()` /
`Path.cwd()`, as components of absolute paths. -/
structure Env where
  home : List (List Char)
  cwd : List (List Char)

/-- The environment's directories consist of well-formed components. -/
def envWF (env : Env) : Bool :=
  (env.home ++ env.cwd).all compWF

/-- `Path.expanduser`: only a relative path whose first component starts with
`~` is touched; a bare `~` is replaced by the home directory and `~user` forms
raise `RuntimeError` (no user database in this model). -/
def expanduserC (env : Env) (ab : Bool) (cs : List (List Char)) :
    Except Err (Bool × List (List Char)) :=
  if ab then .ok (true, cs)
  else
    match cs with
    | [] => .ok (false, [])
    | c :: rest =>
      if c == ['~'] then .ok (true, env.home ++ rest)
      else if c.head? == some '~' then .error .runtimeError
      else .ok (false, c :: rest)

/-- `as_posix` of an absolute path given by its resolved components. -/
def renderAbs (cs : List (List Char)) : String :=
  ⟨'/' :: joinComps cs⟩

/-- `Path(s).expanduser().resolve().as_posix()`, the path-normalization
performed on values of keys containing `"path"` (`BaseConfig.convert_path`,
`ConfigDecoder.process`, `BaseObject.update`). -/
def pathNormStr (env : Env) (s : String) : Except Err String :=
  match expanduserC env (parsePath s.data).1 (parsePath s.data).2 with
  | .error e => .error e
  | .ok (ab2, cs2) =>
      .ok (renderAbs (normComps (if ab2 then cs2 else env.cwd ++ cs2)))

/-! ## The value model

`Value` models the Python values this program traffics in: JSON scalars,
sequences (`list`), mappings (`dict`, as association lists in insertion
order), the dynamically created attribute-container instances produced by
`type(name, bases, attrs)()` (`vnode`, carrying the class name and the
attribute mapping), and `vother`, a stand-in for a builtin object that has no
`__dict__` and is not JSON-representable (`set`, `bytes`, `pathlib.PurePath`,
…), carrying its `str()` form. -/

inductive Value where
  | vnull
  | vbool (b : Bool)
  | vnum (n : Int)
  | vstr (s : String)
  | varr (xs : List Value)
  | vdict (es : List (String × Value))
  | vnode (nm : String) (attrs : List (String × Value))
  | vother (srepr : String)
deriving Repr

abbrev Entries := List (String × Value)

/-- `d[k] = v` on a Python dict: replace in place if the key exists, else
append (insertion order is preserved). -/
def aUpdate : Entries → String → Value → Entries
  | [], k, v => [(k, v)]
  | (k2, v2) :: rest, k, v =>
    if k2 == k then (k2, v) :: rest else (k2, v2) :: aUpdate rest k v

/-- `k in d` for the association-list model. -/
def hasKey (l : Entries) (k : String) : Bool :=
  l.any (fun p => p.1 == k)

/-- Keys are pairwise distinct (true of every Python dict). -/
def nodupKeysB : Entries → Bool
  | [] => true
  | (k, _) :: rest => !hasKey rest k && nodupKeysB rest

/-- Python `in` on strings: `needle in hay` (substring containment). -/
def subAt : List Char → List Char → Bool
  | [], _ => true
  | _ :: _, [] => false
  | a :: as, b :: bs => a == b && subAt as bs

def containsSubC (n : List Char) : List Char → Bool
  | [] => subAt n []
  | c :: t => subAt n (c :: t) || containsSubC n t

def containsSub (hay needle : String) : Bool :=
  containsSubC needle.data hay.data

/-- Python `str.capitalize`: first character upper-cased, the rest lowered. -/
def capitalizeStr (s : String) : String :=
  match s.data with
  | [] => ""
  | c :: rest => ⟨c.toUpper :: rest.map Char.toLower⟩

/-- The private-marker exclusion test of `MapEncoder.process_cls`:
`a[0].startswith("_") and a[0].endswith("_")`. -/
def privName (k : String) : Bool :=
  (k.data.head? == some '_') && (k.data.getLast? == some '_')

/-- Python truthiness of a `Value` (`bool(v)`).  Instances of the dynamically
created classes define neither `__bool__` nor `__len__`, hence are truthy;
`vother` stands for an arbitrary builtin and its truthiness is never relevant
(it is only ever compared against itself), so it is modelled truthy. -/
def truthy : Value → Bool
  | .vnull => false
  | .vbool b => b
  | .vnum n => n != 0
  | .vstr s => !s.isEmpty
  | .varr xs => !xs.isEmpty
  | .vdict es => !es.isEmpty
  | .vnode _ _ => true
  | .vother _ => true

/-! ## Key-sorted entry lists

`inspect.getmembers` returns members sorted by name (Python sorts strings by
code point, which is the lexicographic order on the character lists). -/

def charLtB (a b : Char) : Bool := a.toNat < b.toNat

def charListLeB : List Char → List Char → Bool
  | [], _ => true
  | _ :: _, [] => false
  | a :: as, b :: bs => if a = b then charListLeB as bs else charLtB a b

def strLeB (a b : String) : Bool := charListLeB a.data b.data

def charListLtB : List Char → List Char → Bool
  | [], [] => false
  | [], _ :: _ => true
  | _ :: _, [] => false
  | a :: as, b :: bs => if a = b then charListLtB as bs else charLtB a b

def strLtB (a b : String) : Bool := charListLtB a.data b.data

def KLE (p q : String × Value) : Prop := strLeB p.1 q.1 = true

def KLT (p q : String × Value) : Prop := strLtB p.1 q.1 = true

instance : DecidableRel KLE := fun _ _ => inferInstanceAs (Decidable (_ = true))

instance : DecidableRel KLT := fun _ _ => inferInstanceAs (Decidable (_ = true))

/-- Sort an attribute list by name, as `getmembers` does. -/
def sortK (l : Entries) : Entries := List.insertionSort KLE l

/-! ## The transcoder: decode (`MapDecoder` / `ConfigDecoder`) -/

/-- `BaseConfig.convert_path`, which is also, line for line,
`ConfigDecoder.process`: values of keys containing `"path"` are normalized
(`Path(val).expanduser().resolve().as_posix()`, raising `TypeError` when the
value is not a string); other values pass through. -/
def convert_path (env : Env) (k : String) (v : Value) : Except Err Value :=
  if containsSub k "path" then
    match v with
    | .vstr s =>
      match pathNormStr env s with
      | .error e => .error e
      | .ok t => .ok (.vstr t)
    | _ => .error .typeError
  else .ok v

mutual
/-- One value inside `MapDecoder.pack_dict`'s loop before the processor runs:
`if isinstance(v, dict): v = self.pack_dict(v, parent=k)`. -/
def packVal (env : Env) (k : String) (v : Value) : Except Err Value :=
  match v with
  | .vdict es =>
    match packEntriesAux env es [] with
    | .error e => .error e
    | .ok attrs => .ok (.vnode (capitalizeStr k) attrs)
  | _ => .ok v

/-- The `attrs` accumulation of `MapDecoder.pack_dict` with the
`ConfigDecoder.process` processor: `vv = self.processor(k, v) or v;
attrs.update({k: vv})`. -/
def packEntriesAux (env : Env) : Entries → Entries → Except Err Entries
  | [], acc => .ok acc
  | (k, v) :: rest, acc =>
    match packVal env k v with
    | .error e => .error e
    | .ok v1 =>
      match convert_path env k v1 with
      | .error e => .error e
      | .ok pv =>
        packEntriesAux env rest (aUpdate acc k (if truthy pv then pv else v1))
end

/-- `ConfigDecoder.pack_dict(__d, parent)`: build the attribute mapping and
return an instance of `type(parent.capitalize(), bases, attrs)`. -/
def packDict (env : Env) (es : Entries) (parent : String) : Except Err Value :=
  match packEntriesAux env es [] with
  | .error e => .error e
  | .ok attrs => .ok (.vnode (capitalizeStr parent) attrs)

mutual
/-- Accumulator-free unfolding of `packVal`, used to reason by structural
induction; equal to `packVal` on duplicate-free mappings (`packAux_eq_packL`). -/
def packValL (env : Env) (k : String) (v : Value) : Except Err Value :=
  match v with
  | .vdict es =>
    match packL env es with
    | .error e => .error e
    | .ok attrs => .ok (.vnode (capitalizeStr k) attrs)
  | _ => .ok v

def packL (env : Env) : Entries → Except Err Entries
  | [] => .ok []
  | (k, v) :: rest =>
    match packValL env k v with
    | .error e => .error e
    | .ok v1 =>
      match convert_path env k v1 with
      | .error e => .error e
      | .ok pv =>
        match packL env rest with
        | .error e => .error e
        | .ok tail => .ok ((k, if truthy pv then pv else v1) :: tail)
end

/-- The `rv` loop of `MapDecoder._object_hook`. -/
def hookEntries (env : Env) : Entries → Entries → Except Err Entries
  | [], acc => .ok acc
  | (k, v) :: rest, acc =>
    match v with
    | .vdict es2 =>
      match packDict env es2 k with
      | .error e => .error e
      | .ok nd => hookEntries env rest (aUpdate acc k nd)
    | _ => hookEntries env rest (aUpdate acc k v)

mutual
/-- `json.loads(text, cls=ConfigDecoder)` on an already-parsed document:
`_object_hook` is applied to every JSON object, innermost first; the hook
turns every mapping-valued entry into a `pack_dict` node and leaves
everything else (scalars and sequences, in particular) unchanged. -/
def jsonDecode (env : Env) : Value → Except Err Value
  | .vdict es =>
    match jdEntries env es with
    | .error e => .error e
    | .ok es2 =>
      match hookEntries env es2 [] with
      | .error e => .error e
      | .ok rv => .ok (.vdict rv)
  | .varr xs =>
    match jdList env xs with
    | .error e => .error e
    | .ok ys => .ok (.varr ys)
  | v => .ok v

def jdEntries (env : Env) : Entries → Except Err Entries
  | [] => .ok []
  | (k, v) :: rest =>
    match jsonDecode env v with
    | .error e => .error e
    | .ok v2 =>
      match jdEntries env rest with
      | .error e => .error e
      | .ok tail => .ok ((k, v2) :: tail)

def jdList (env : Env) : List Value → Except Err (List Value)
  | [] => .ok []
  | v :: rest =>
    match jsonDecode env v with
    | .error e => .error e
    | .ok v2 =>
      match jdList env rest with
      | .error e => .error e
      | .ok tail => .ok (v2 :: tail)
end

/-! ## The transcoder: encode (`MapEncoder.process_cls`) -/

mutual
/-- Python `repr` of a value (element form inside `str` of a container).
String escaping is not modelled; no claim depends on these strings, they only
realize the `str(obj)` fallback of `process_cls`. -/
def pyRepr : Value → String
  | .vnull => "None"
  | .vbool true => "True"
  | .vbool false => "False"
  | .vnum n => toString n
  | .vstr s => "'" ++ s ++ "'"
  | .varr xs => "[" ++ pyReprArr xs ++ "]"
  | .vdict es => "\x7b" ++ pyReprEs es ++ "\x7d"
  | .vnode nm _ => "<" ++ nm ++ " object>"
  | .vother s => s

def pyReprArr : List Value → String
  | [] => ""
  | [v] => pyRepr v
  | v :: rest => pyRepr v ++ ", " ++ pyReprArr rest

def pyReprEs : Entries → String
  | [] => ""
  | [(k, v)] => "'" ++ k ++ "': " ++ pyRepr v
  | (k, v) :: rest => "'" ++ k ++ "': " ++ pyRepr v ++ ", " ++ pyReprEs rest
end

/-- Python `str` of a value (`str` of a string is itself). -/
def pyStr : Value → String
  | .vstr s => s
  | .vother s => s
  | v => pyRepr v

mutual
/-- The per-member step of `process_cls`:
`rv[k] = self.process_cls(v) if hasattr(v, "__dict__") else v`.  Only node
instances have a `__dict__` in this model; every other value is kept as is. -/
def encodeAttrVal : Value → Value
  | .vnode _ attrs => .vdict (sortK (encAttrList attrs))
  | v => v

/-- Filter out private names and encode each member value.  In the source,
`getmembers` first sorts all members by name, the comprehension then drops
private names, and the loop encodes the values; since the sort compares names
only and the filter and the per-value encoding preserve names and relative
order, sorting after filtering (as `encodeAttrVal` does) builds the same
list. -/
def encAttrList : Entries → Entries
  | [] => []
  | (k, v) :: rest =>
    if privName k then encAttrList rest
    else (k, encodeAttrVal v) :: encAttrList rest
end

/-- The encoded attribute mapping of a node: sorted, private names dropped,
member values encoded. -/
def encodeAttrs (attrs : Entries) : Entries := sortK (encAttrList attrs)

/-- `MapEncoder.process_cls(obj)`: recurse into the members of an object with
a `__dict__`, otherwise return `str(obj)`. -/
def processCls : Value → Value
  | .vnode _ attrs => .vdict (encodeAttrs attrs)
  | v => .vstr (pyStr v)

mutual
/-- JSON-serializability, as `json.JSONEncoder` decides it: scalars,
sequences and mappings only.  A leftover node instance or builtin object makes
the base serializer's `default` raise `TypeError`. -/
def isJsonV : Value → Bool
  | .vnull | .vbool _ | .vnum _ | .vstr _ => true
  | .varr xs => isJsonArr xs
  | .vdict es => isJsonEs es
  | .vnode _ _ => false
  | .vother _ => false

def isJsonArr : List Value → Bool
  | [] => true
  | v :: rest => isJsonV v && isJsonArr rest

def isJsonEs : Entries → Bool
  | [] => true
  | (_, v) :: rest => isJsonV v && isJsonEs rest
end

/-- `json.dumps(obj, cls=MapEncoder)`: run `process_cls`, then serialize with
the base encoder, which raises `TypeError` on anything not JSON-representable
that survived. -/
def encodeTop (v : Value) : Except Err Value :=
  if isJsonV (processCls v) then .ok (processCls v) else .error .typeError

/-! ## Canonical forms for attribute-for-attribute comparison

Two mappings are "equal attribute for attribute" when, recursively and
ignoring attributes whose names start and end with `_`, they associate equal
values to equal names; order is irrelevant.  `canon` normalizes to a
key-sorted, private-free form so that this comparison is plain equality. -/

mutual
def canon : Value → Value
  | .vdict es => .vdict (sortK (canonList es))
  | .vnode nm attrs => .vnode nm (sortK (canonList attrs))
  | .varr xs => .varr (canonArr xs)
  | v => v

def canonList : Entries → Entries
  | [] => []
  | (k, v) :: rest =>
    if privName k then canonList rest else (k, canon v) :: canonList rest

def canonArr : List Value → List Value
  | [] => []
  | v :: rest => canon v :: canonArr rest
end

/-! ## Well-formed inputs and the normalized-invariant -/

mutual
/-- A JSON-representable input mapping value: scalars, sequences, mappings,
with pairwise-distinct keys in every mapping (true by construction of every
Python dict). -/
def wfJV : Value → Bool
  | .vnull | .vbool _ | .vnum _ | .vstr _ => true
  | .varr xs => wfJArr xs
  | .vdict es => nodupKeysB es && wfJEs es
  | .vnode _ _ => false
  | .vother _ => false

def wfJArr : List Value → Bool
  | [] => true
  | v :: rest => wfJV v && wfJArr rest

def wfJEs : Entries → Bool
  | [] => true
  | (_, v) :: rest => wfJV v && wfJEs rest
end

/-- A well-formed top-level mapping. -/
def wfJE (es : Entries) : Bool := nodupKeysB es && wfJEs es

mutual
/-- The invariant of `path_resolve` output: JSON-shaped, duplicate-free, and
every string under a `"path"`-containing key is already normalized (so
normalizing it again is the identity). -/
def goodV (env : Env) (k : String) (v : Value) : Bool :=
  if containsSub k "path" then
    match v with
    | .vstr s =>
      (match pathNormStr env s with
       | .ok t => t == s
       | .error _ => false)
    | .vdict es => nodupKeysB es && goodE env es
    | _ => false
  else
    match v with
    | .vdict es => nodupKeysB es && goodE env es
    | .varr xs => isJsonArr xs
    | .vnull | .vbool _ | .vnum _ | .vstr _ => true
    | _ => false

def goodE (env : Env) : Entries → Bool
  | [] => true
  | (k, v) :: rest => goodV env k v && goodE env rest
end

/-! ## `BaseConfig.path_resolve` (pre-decode path normalization) -/

mutual
/-- One value of `BaseConfig.path_resolve`: mappings recurse, everything else
goes through `convert_path`. -/
def path_resolveV (env : Env) (k : String) (v : Value) : Except Err Value :=
  match v with
  | .vdict es =>
    match path_resolveAux env es [] with
    | .error e => .error e
    | .ok rv => .ok (.vdict rv)
  | _ => convert_path env k v

/-- The `rv` accumulation of `BaseConfig.path_resolve`. -/
def path_resolveAux (env : Env) : Entries → Entries → Except Err Entries
  | [], acc => .ok acc
  | (k, v) :: rest, acc =>
    match path_resolveV env k v with
    | .error e => .error e
    | .ok v2 => path_resolveAux env rest (aUpdate acc k v2)
end

/-- `BaseConfig.path_resolve(_d)`. -/
def path_resolve (env : Env) (es : Entries) : Except Err Entries :=
  path_resolveAux env es []

mutual
/-- Accumulator-free unfolding of `path_resolveV`; equal to it on
duplicate-free mappings. -/
def path_resolveVL (env : Env) (k : String) (v : Value) : Except Err Value :=
  match v with
  | .vdict es =>
    match path_resolveL env es with
    | .error e => .error e
    | .ok rv => .ok (.vdict rv)
  | _ => convert_path env k v

def path_resolveL (env : Env) : Entries → Except Err Entries
  | [] => .ok []
  | (k, v) :: rest =>
    match path_resolveVL env k v with
    | .error e => .error e
    | .ok v2 =>
      match path_resolveL env rest with
      | .error e => .error e
      | .ok tail => .ok ((k, v2) :: tail)
end

/-! ## Node mutation: `BaseObject.update` and `BaseConfig` -/

/-- The `setattr` loop of `BaseObject.update`: keys containing `"path"` have
their value passed through `Path(v).expanduser().resolve().as_posix()` before
being stored; an exception leaves the attributes set so far in place. -/
def baseObjSetLoop (env : Env) : Entries → Entries → Entries × Option Err
  | attrs, [] => (attrs, none)
  | attrs, (k, v) :: rest =>
    if containsSub k "path" then
      match v with
      | .vstr s =>
        match pathNormStr env s with
        | .error e => (attrs, some e)
        | .ok t => baseObjSetLoop env (aUpdate attrs k (.vstr t)) rest
      | _ => (attrs, some .typeError)
    else baseObjSetLoop env (aUpdate attrs k v) rest

/-- `BaseObject.update(__d, **kwargs)`.  When both a non-empty mapping and
keyword arguments are given, the source stores
`data = dict(__d).update(**kwargs)`, which is `None` (`dict.update` returns
`None` and the merged copy is discarded); the following `data.items()` then
raises `AttributeError` before any attribute is written. -/
def baseObjUpdate (env : Env) (attrs : Entries) (d kw : Entries) :
    Entries × Option Err :=
  if !d.isEmpty && !kw.isEmpty then (attrs, some .attrError)
  else baseObjSetLoop env attrs (if !d.isEmpty then d else kw)

/-- The loop of `BaseConfig.set_attr`: `val = convert_path(k, v)` is computed
first (so its `TypeError` aborts the call either way), but when
`processor_cb` is `None` the source stores the original `v`, not `val`. -/
def set_attr_loop (env : Env) (cb : Option (String → Value → Value)) :
    Entries → Entries → Entries × Option Err
  | attrs, [] => (attrs, none)
  | attrs, (k, v) :: rest =>
    match convert_path env k v with
    | .error e => (attrs, some e)
    | .ok val =>
      set_attr_loop env cb
        (aUpdate attrs k (match cb with | some f => f k val | none => v)) rest

/-- `BaseConfig.set_attr(data, processor_cb)` on a plain node (an instance of
a dynamically created `BaseConfig` subclass, where `setattr` writes an
ordinary attribute). -/
def set_attr (env : Env) (attrs data : Entries)
    (cb : Option (String → Value → Value)) : Entries × Option Err :=
  set_attr_loop env cb attrs data

/-- `BaseConfig.update(data, processor_cb, **kwargs)`:
`data = dict(data, **kwargs) if data else dict(**kwargs)`, then `set_attr`.
A `None` mapping is modelled by the empty list (both are falsy). -/
def bcUpdate (env : Env) (attrs data : Entries)
    (cb : Option (String → Value → Value)) (kw : Entries) : Entries × Option Err :=
  set_attr env attrs
    (if !data.isEmpty then kw.foldl (fun acc p => aUpdate acc p.1 p.2) data else kw)
    cb

/-! ## The Store (`Config`) and its filesystem

The TOML/JSON text parsers and the `libnacl` encryption collaborator are
external per the specification; they are modelled by `FileData`: a file's
bytes either parse as a JSON document, parse as a TOML document, are an
authenticated ciphertext `encF keyId plain` (decryption succeeds exactly when
the key loaded from the key file is `keyId`), are a key file holding key
`keyId`, or are none of these.  `load_key` is the collaborator's
`loadKey(path) -> key`, total on readable files per its contract. -/

inductive FileData where
  | jsonF (v : Value)
  | tomlF (v : Value)
  | encF (keyId : Nat) (plain : FileData)
  | keyF (keyId : Nat)
  | rawF
deriving Repr

inductive FSEntry where
  | dirE
  | fileE (d : FileData)
deriving Repr

abbrev FS := List (String × FSEntry)

def fsGet : FS → String → Option FSEntry
  | [], _ => none
  | (p, e) :: rest, q => if p == q then some e else fsGet rest q

def fsIsFile (fs : FS) (p : String) : Bool :=
  match fsGet fs p with
  | some (.fileE _) => true
  | _ => false

/-- `libnacl.utils.load_key` (collaborator). -/
def loadKeyD : FileData → Nat
  | .keyF kid => kid
  | _ => 0

/-- The state of a `Config` instance: the two resolved `Path` attributes
`_save_path_` and `_key_path_`, the `_converted_` cache when assigned, and
the remaining instance attributes. -/
structure ConfigState where
  savePathC : List (List Char)
  keyPathC : List (List Char)
  converted : Option Value
  attrs : Entries

/-- `Path(val).expanduser().resolve()` as components (the body of the
`save_path` / `key_path` property setters). -/
def pathToComps (env : Env) (s : String) : Except Err (List (List Char)) :=
  match expanduserC env (parsePath s.data).1 (parsePath s.data).2 with
  | .error e => .error e
  | .ok (ab2, cs2) => .ok (normComps (if ab2 then cs2 else env.cwd ++ cs2))

/-- `setattr(self, k, v)` on a `Config`: the names `save_path` and `key_path`
are data-descriptor properties, so assignment runs their setters (which
resolve the value into `_save_path_` / `_key_path_` and require a
string-like); any other name becomes an ordinary attribute. -/
def configSetOne (env : Env) (c : ConfigState) (k : String) (v : Value) :
    Except Err ConfigState :=
  if k == "save_path" then
    match v with
    | .vstr s =>
      match pathToComps env s with
      | .error e => .error e
      | .ok cs => .ok { c with savePathC := cs }
    | _ => .error .typeError
  else if k == "key_path" then
    match v with
    | .vstr s =>
      match pathToComps env s with
      | .error e => .error e
      | .ok cs => .ok { c with keyPathC := cs }
    | _ => .error .typeError
  else .ok { c with attrs := aUpdate c.attrs k v }

/-- `BaseConfig.set_attr` running on a `Config` instance (as `load` and
`restore` invoke it, with no `processor_cb`): `convert_path` is evaluated and
its result discarded, the raw value is stored. -/
def configSetLoop (env : Env) : ConfigState → Entries → ConfigState × Option Err
  | c, [] => (c, none)
  | c, (k, v) :: rest =>
    match convert_path env k v with
    | .error e => (c, some e)
    | .ok _ =>
      match configSetOne env c k v with
      | .error e => (c, some e)
      | .ok c2 => configSetLoop env c2 rest

/-- `MapEncoder.process_cls` on a `Config` instance: `getmembers` enumerates
the sorted non-routine members, which are the non-private instance attributes
together with the two evaluated properties `key_path` and `save_path`
(strings, kept as-is by the member loop); `_save_path_`, `_key_path_` and
`_converted_` all match the private-marker exclusion.  As with
`encodeAttrs`, sorting last equals sorting first because the sort compares
names only. -/
def encodeConfig (c : ConfigState) : Entries :=
  sortK (encAttrList c.attrs ++
    [("key_path", .vstr (renderAbs c.keyPathC)),
     ("save_path", .vstr (renderAbs c.savePathC))])

/-- `self._save_path_.parent.mkdir(exist_ok=True)`: succeeds silently if the
parent exists as a directory, raises `FileExistsError` if it exists as a
file, creates it if absent and its own parent is a directory, and raises
`FileNotFoundError` otherwise (`parents=False`).  The filesystem root always
exists. -/
def mkdirSaveParent (fs : FS) (saveC : List (List Char)) : FS × Option Err :=
  if saveC.dropLast.isEmpty then (fs, none)
  else
    match fsGet fs (renderAbs saveC.dropLast) with
    | some .dirE => (fs, none)
    | some (.fileE _) => (fs, some .fileExists)
    | none =>
      match fsGet fs (renderAbs saveC.dropLast.dropLast) with
      | some .dirE => (fs ++ [(renderAbs saveC.dropLast, .dirE)], none)
      | _ => (fs, some .fileNotFound)

/-- The final path component, as `pathlib`'s `name`. -/
def lastComp (s : String) : List Char :=
  ((splitChars '/' s.data).filter (fun c => !c.isEmpty && !(c == ['.']))).getLastD []

/-- `Path(p).suffix`: the extension of the final component, empty when the
only dot is leading or the last dot is trailing. -/
def pathSuffix (s : String) : String :=
  match splitChars '.' (lastComp s) with
  | [] => ""
  | [_] => ""
  | p :: ps =>
    if (ps.getLastD []).isEmpty then ""
    else if p.isEmpty && ps.length == 1 then ""
    else "." ++ (⟨ps.getLastD []⟩ : String)

/-- The body under `with open(...)` in `Config.load` once the format is
known: `path_resolve`, and if the result is truthy, decode with
`ConfigDecoder` into `_converted_` and merge with `set_attr`. -/
def loadCont (env : Env) (fs1 : FS) (c : ConfigState) (dv : Value) :
    ConfigState × FS × Option Err :=
  match dv with
  | .vdict es =>
    match path_resolve env es with
    | .error e => (c, fs1, some e)
    | .ok rd =>
      if rd.isEmpty then (c, fs1, none)
      else
        match jsonDecode env (.vdict rd) with
        | .error e => (c, fs1, some e)
        | .ok conv =>
          match conv with
          | .vdict ces =>
            match configSetLoop env { c with converted := some conv } ces with
            | (c2, oe) => (c2, fs1, oe)
          | _ => ({ c with converted := some conv }, fs1, some .attrError)
  | _ => (c, fs1, some .attrError)

/-- `Config.load(load_path)`.  Returns the state, the filesystem (the save
target's parent directory may have been created) and the raised exception if
any. -/
def loadC (env : Env) (fs : FS) (c : ConfigState) (lp : String) :
    ConfigState × FS × Option Err :=
  match mkdirSaveParent fs c.savePathC with
  | (fs1, some e) => (c, fs1, some e)
  | (fs1, none) =>
    match fsGet fs1 lp with
    | some (.fileE fd) =>
      if pathSuffix lp == ".json" then
        match fd with
        | .jsonF dv => loadCont env fs1 c dv
        | _ => (c, fs1, some .parseError)
      else if pathSuffix lp == ".toml" then
        match fd with
        | .tomlF dv => loadCont env fs1 c dv
        | _ => (c, fs1, some .parseError)
      else (c, fs1, some .unsupportedFormat)
    | _ => (c, fs1, some .fileNotFound)

/-- `Config.restore()`.  `self._key_path_` is a `Path`, hence always truthy;
if the key file does not exist (or is not a regular file) the body is
skipped silently.  Otherwise `_decrypt` loads the key, reads the save target
(raising `FileNotFoundError` when it is absent), authenticates and decrypts
(failing on any non-matching ciphertext), and the result is parsed as JSON,
decoded, cached in `_converted_` and merged via `set_attr`. -/
def restoreC (env : Env) (fs : FS) (c : ConfigState) : ConfigState × Option Err :=
  match fsGet fs (renderAbs c.keyPathC) with
  | some (.fileE kd) =>
    match fsGet fs (renderAbs c.savePathC) with
    | none => (c, some .fileNotFound)
    | some .dirE => (c, some .isADirectory)
    | some (.fileE sd) =>
      match sd with
      | .encF kid2 plain =>
        if kid2 == loadKeyD kd then
          match plain with
          | .jsonF pv =>
            match jsonDecode env pv with
            | .error e => (c, some e)
            | .ok conv =>
              match conv with
              | .vdict ces =>
                configSetLoop env { c with converted := some conv } ces
              | _ => ({ c with converted := some conv }, some .attrError)
          | _ => (c, some .parseError)
        else (c, some .decryptionFailure)
      | _ => (c, some .decryptionFailure)
  | _ => (c, none)

/-- Pairwise-distinct keys. -/
def pwNeKeys (l : Entries) : Prop := l.Pairwise (fun p q => p.1 ≠ q.1)

/-! ## Concrete fixtures for witnesses and counterexamples -/

/-- A concrete environment: home `/home/u`, working directory `/w`. -/
def envD : Env := ⟨[['h','o','m','e'], ['u']], [['w']]⟩

/-- A concrete store state: save target `/tmp/cfg`, key file `/tmp/key`. -/
def cD : ConfigState := ⟨[['t','m','p'], ['c','f','g']], [['t','m','p'], ['k','e','y']], none, []⟩

/-! ## Claim C9 -/

/-- A JSON scalar (not a sequence or mapping). -/
def isScalar : Value → Bool
  | .vnull | .vbool _ | .vnum _ | .vstr _ => true
  | _ => false

/-- The concrete scenario of the specification, exercising C1 end to end. -/
def M0 : Entries :=
  [("build", .vdict [("type", .vstr "Debug")]),
   ("project", .vdict [("name", .vstr "X"), ("path", .vstr "~/p")])]

def N0 : Entries :=
  [("build", .vdict [("type", .vstr "Debug")]),
   ("project", .vdict [("name", .vstr "X"), ("path", .vstr "/home/u/p")])]

def t0 : Value :=
  .vnode "" [("build", .vnode "Build" [("type", .vstr "Debug")]),
             ("project", .vnode "Project" [("name", .vstr "X"), ("path", .vstr "/home/u/p")])]

/-! ## Theorems -/

/-! ### Path-layer lemmas -/

theorem data_mk (l : List Char) : (String.mk l).data = l := rfl

theorem noSlash_iff (c : List Char) : noSlash c = true ↔ ('/' : Char) ∉ c := by
  induction c with
  | nil => simp [noSlash]
  | cons a t ih =>
    simp only [noSlash, Bool.and_eq_true, ih, List.mem_cons]
    constructor
    · rintro ⟨h1, h2⟩ (h | h)
      · simp [← h] at h1
      · exact h2 h
    · intro h
      refine ⟨?_, fun hm => h (Or.inr hm)⟩
      simpa using fun he : a = '/' => h (Or.inl he.symm)

theorem splitChars_ne_nil (sep : Char) (l : List Char) : splitChars sep l ≠ [] := by
  cases l with
  | nil => simp [splitChars]
  | cons c cs =>
    simp only [splitChars]
    split
    · simp
    · split <;> simp

theorem mem_splitChars_not_sep (sep : Char) :
    ∀ (l : List Char) (g : List Char), g ∈ splitChars sep l → sep ∉ g := by
  intro l
  induction l with
  | nil => intro g hg; simp [splitChars] at hg; simp [hg]
  | cons c cs ih =>
    intro g hg
    simp only [splitChars] at hg
    cases hr : splitChars sep cs with
    | nil => exact absurd hr (splitChars_ne_nil sep cs)
    | cons g0 gs =>
      rw [hr] at hg
      by_cases hc : c = sep
      · simp [hc] at hg
        rcases hg with hg | hg | hg
        · simp [hg]
        · exact ih g (by rw [hr]; simp [hg])
        · exact ih g (by rw [hr]; simp [hg])
      · simp [hc] at hg
        rcases hg with hg | hg
        · subst hg
          intro hmem
          rcases List.mem_cons.mp hmem with h | h
          · exact hc h.symm
          · exact ih g0 (by rw [hr]; simp) h
        · exact ih g (by rw [hr]; simp [hg])

theorem splitChars_of_not_mem (sep : Char) :
    ∀ (l : List Char), sep ∉ l → splitChars sep l = [l] := by
  intro l
  induction l with
  | nil => intro _; rfl
  | cons c cs ih =>
    intro h
    have hc : c ≠ sep := fun he => h (by simp [he])
    have hcs : sep ∉ cs := fun hm => h (by simp [hm])
    simp only [splitChars, ih hcs]
    simp [hc]

theorem splitChars_append_sep (sep : Char) :
    ∀ (g t : List Char), sep ∉ g →
      splitChars sep (g ++ sep :: t) = g :: splitChars sep t := by
  intro g
  induction g with
  | nil =>
    intro t _
    simp only [List.nil_append, splitChars]
    cases hr : splitChars sep t with
    | nil => exact absurd hr (splitChars_ne_nil sep t)
    | cons g0 gs => simp
  | cons a g2 ih =>
    intro t h
    have ha : a ≠ sep := fun he => h (by simp [he])
    have hg2 : sep ∉ g2 := fun hm => h (by simp [hm])
    simp only [List.cons_append, splitChars, List.append_eq]
    rw [ih t hg2]
    simp [ha]

theorem joinComps_cons (g : List Char) (gs : List (List Char)) (h : gs ≠ []) :
    joinComps (g :: gs) = g ++ '/' :: joinComps gs := by
  cases gs with
  | nil => exact absurd rfl h
  | cons g2 gs2 => rfl

theorem splitChars_joinComps :
    ∀ (cs : List (List Char)), cs ≠ [] → (∀ c ∈ cs, ('/' : Char) ∉ c) →
      splitChars '/' (joinComps cs) = cs := by
  intro cs
  induction cs with
  | nil => intro h; exact absurd rfl h
  | cons g gs ih =>
    intro _ hmem
    cases hgs : gs with
    | nil =>
      exact splitChars_of_not_mem '/' g (hmem g (by simp))
    | cons g2 gs2 =>
      have hjoin : joinComps (g :: gs) = g ++ '/' :: joinComps gs :=
        joinComps_cons g gs (by simp [hgs])
      rw [← hgs, hjoin,
        splitChars_append_sep '/' g (joinComps gs) (hmem g (by simp)),
        ih (by simp [hgs]) (fun c hc => hmem c (by simp [hc]))]

theorem compWF_parts (c : List Char) (h : compWF c = true) :
    c ≠ [] ∧ c ≠ ['.'] ∧ c ≠ ['.', '.'] ∧ ('/' : Char) ∉ c := by
  unfold compWF at h
  simp only [Bool.and_eq_true] at h
  refine ⟨?_, ?_, ?_, (noSlash_iff c).mp h.2⟩
  · have := h.1.1.1
    cases c <;> simp_all [List.isEmpty]
  · simpa using h.1.1.2
  · simpa using h.1.2

theorem parsePath_renderAbs (cs : List (List Char)) (h : ∀ c ∈ cs, compWF c = true) :
    parsePath (renderAbs cs).data = (true, cs) := by
  have hdata : (renderAbs cs).data = '/' :: joinComps cs := rfl
  rw [hdata]
  unfold parsePath
  refine Prod.ext (by simp) ?_
  simp only []
  have hsplit : splitChars '/' ('/' :: joinComps cs) = [] :: splitChars '/' (joinComps cs) := by
    simp only [splitChars]
    cases hr : splitChars '/' (joinComps cs) with
    | nil => exact absurd hr (splitChars_ne_nil '/' (joinComps cs))
    | cons g0 gs => simp
  rw [hsplit]
  cases hcs : cs with
  | nil =>
    simp only [hcs, joinComps]
    rfl
  | cons g gs =>
    rw [← hcs]
    rw [splitChars_joinComps cs (by simp [hcs])
      (fun c hc => (compWF_parts c (h c hc)).2.2.2)]
    simp only [List.filter]
    have hnil : (!List.isEmpty ([] : List Char) && !(([] : List Char) == ['.'])) = false := by
      decide
    rw [hnil]
    rw [List.filter_eq_self.mpr]
    intro c hc
    rcases compWF_parts c (h c hc) with ⟨h1, h2, _, _⟩
    simp [h1, h2, List.isEmpty]
    cases c <;> simp_all

theorem normComps_aux_wf :
    ∀ (l acc : List (List Char)),
      (∀ c ∈ acc, compWF c = true) →
      (∀ c ∈ l, c ≠ ['.', '.'] → compWF c = true) →
      ∀ c ∈ List.foldl (fun acc c => if c == ['.', '.'] then acc.dropLast else acc ++ [c]) acc l,
        compWF c = true := by
  intro l
  induction l with
  | nil => intro acc hacc _ c hc; exact hacc c hc
  | cons a l2 ih =>
    intro acc hacc hl c hc
    simp only [List.foldl_cons] at hc
    by_cases ha : (a == ['.', '.']) = true
    · rw [if_pos ha] at hc
      exact ih _ (fun d hd => hacc d ((List.dropLast_sublist acc).subset hd))
        (fun d hd hne => hl d (by simp [hd]) hne) c hc
    · rw [if_neg ha] at hc
      refine ih _ ?_ (fun d hd hne => hl d (by simp [hd]) hne) c hc
      intro d hd
      rcases List.mem_append.mp hd with h | h
      · exact hacc d h
      · simp at h
        subst h
        exact hl d (by simp) (by simpa using ha)

theorem normComps_wf (l : List (List Char))
    (h : ∀ c ∈ l, c ≠ ['.', '.'] → compWF c = true) :
    ∀ c ∈ normComps l, compWF c = true :=
  normComps_aux_wf l [] (by simp) h

theorem normComps_of_wf :
    ∀ (l acc : List (List Char)), (∀ c ∈ l, c ≠ ['.', '.']) →
      List.foldl (fun acc c => if c == ['.', '.'] then acc.dropLast else acc ++ [c]) acc l
        = acc ++ l := by
  intro l
  induction l with
  | nil => intro acc _; simp
  | cons a l2 ih =>
    intro acc h
    have ha : ¬(a == ['.', '.']) = true := by
      simp only [beq_iff_eq]
      exact h a (by simp)
    simp only [List.foldl_cons, if_neg ha]
    rw [ih (acc ++ [a]) (fun c hc => h c (by simp [hc]))]
    simp

theorem normComps_id (l : List (List Char)) (h : ∀ c ∈ l, c ≠ ['.', '.']) :
    normComps l = l := by
  unfold normComps
  rw [normComps_of_wf l [] h]
  simp

/-- Components produced by `parsePath` satisfy everything of `compWF` except
possibly being `..`. -/
theorem parsePath_comp_wf (l : List Char) :
    ∀ c ∈ (parsePath l).2, c ≠ ['.', '.'] → compWF c = true := by
  intro c hc hne
  unfold parsePath at hc
  simp only [List.mem_filter] at hc
  have hnosep : ('/' : Char) ∉ c := mem_splitChars_not_sep '/' l c hc.1
  have h1 := hc.2
  simp only [Bool.and_eq_true] at h1
  unfold compWF
  simp only [Bool.and_eq_true]
  exact ⟨⟨⟨h1.1, h1.2⟩, by simpa using hne⟩, (noSlash_iff c).mpr hnosep⟩

/-- A normalized path string re-normalizes to itself.  This is the
idempotence fact behind claim C8 and the round-trip law; it is a helper so
that other developments can use it without referencing the claim theorem. -/
theorem pathNorm_idem_helper (env : Env) (henv : envWF env = true) (s t : String)
    (h : pathNormStr env s = .ok t) : pathNormStr env t = .ok t := by
  have henvh : ∀ c ∈ env.home ++ env.cwd, compWF c = true := by
    intro c hc
    unfold envWF at henv
    rw [List.all_eq_true] at henv
    exact henv c hc
  unfold pathNormStr at h
  split at h
  · exact absurd h (by simp)
  · rename_i ab2 cs2 hexp
    injection h with ht
    set u := normComps (if ab2 then cs2 else env.cwd ++ cs2) with hu
    have hwf : ∀ c ∈ u, compWF c = true := by
      rw [hu]
      apply normComps_wf
      intro c hc hne
      have hcs2 : ∀ c ∈ cs2, c ≠ ['.', '.'] → compWF c = true := by
        unfold expanduserC at hexp
        split at hexp
        · injection hexp with h1
          injection h1 with h1a h1b
          subst h1b
          exact fun c hc hne => parsePath_comp_wf s.data c hc hne
        · split at hexp
          · injection hexp with h1
            injection h1 with h1a h1b
            subst h1b
            simp
          · rename_i c0 rest heq
            split at hexp
            · injection hexp with h1
              injection h1 with h1a h1b
              subst h1b
              intro c hc hne
              rcases List.mem_append.mp hc with hm | hm
              · exact henvh c (by simp [hm])
              · refine parsePath_comp_wf s.data c ?_ hne
                rw [heq]
                simp [hm]
            · split at hexp
              · exact absurd hexp (by simp)
              · injection hexp with h1
                injection h1 with h1a h1b
                subst h1b
                intro c hc hne
                refine parsePath_comp_wf s.data c ?_ hne
                rw [heq]
                exact hc
      by_cases hab : ab2 = true
      · rw [if_pos hab] at hc
        exact hcs2 c hc hne
      · rw [if_neg hab] at hc
        rcases List.mem_append.mp hc with hm | hm
        · exact henvh c (by simp [hm])
        · exact hcs2 c hm hne
    have hparse : parsePath t.data = (true, u) := by
      rw [← ht]
      exact parsePath_renderAbs u hwf
    unfold pathNormStr
    rw [hparse]
    show Except.ok (renderAbs (normComps u)) = Except.ok t
    rw [normComps_id u (fun c hc => (compWF_parts c (hwf c hc)).2.2.1), ht]

/-! ### Order lemmas for the key sort -/

theorem char_toNat_inj (a b : Char) (h : a.toNat = b.toNat) : a = b :=
  Char.eq_of_val_eq (UInt32.eq_of_toBitVec_eq (BitVec.eq_of_toNat_eq h))

theorem charLtB_asymm (a b : Char) (h : charLtB a b = true) : charLtB b a = false := by
  simp [charLtB] at *
  omega

theorem charLtB_trans (a b c : Char) (h1 : charLtB a b = true) (h2 : charLtB b c = true) :
    charLtB a c = true := by
  simp [charLtB] at *
  omega

theorem charLtB_ne (a b : Char) (h : charLtB a b = true) : a ≠ b := by
  simp [charLtB] at h
  intro he
  subst he
  omega

theorem charLtB_total (a b : Char) (hne : a ≠ b) :
    charLtB a b = true ∨ charLtB b a = true := by
  simp only [charLtB, decide_eq_true_eq]
  rcases Nat.lt_trichotomy a.toNat b.toNat with h | h | h
  · exact Or.inl h
  · exact absurd (char_toNat_inj a b h) hne
  · exact Or.inr h

theorem charListLeB_total :
    ∀ x y : List Char, charListLeB x y = true ∨ charListLeB y x = true := by
  intro x
  induction x with
  | nil => intro y; exact Or.inl rfl
  | cons a as ih =>
    intro y
    cases y with
    | nil => exact Or.inr rfl
    | cons b bs =>
      by_cases hab : a = b
      · subst hab
        simp only [charListLeB, if_pos rfl]
        exact ih bs
      · simp only [charListLeB, if_neg hab, if_neg (Ne.symm hab)]
        exact charLtB_total a b hab

theorem charListLeB_trans :
    ∀ x y z : List Char, charListLeB x y = true → charListLeB y z = true →
      charListLeB x z = true := by
  intro x
  induction x with
  | nil => intro y z _ _; rfl
  | cons a as ih =>
    intro y z h1 h2
    cases y with
    | nil => simp [charListLeB] at h1
    | cons b bs =>
      cases z with
      | nil => simp [charListLeB] at h2
      | cons c cs =>
        by_cases hab : a = b <;> by_cases hbc : b = c
        · subst hab; subst hbc
          simp only [charListLeB, if_pos rfl] at *
          exact ih bs cs h1 h2
        · subst hab
          simp only [charListLeB, if_pos rfl, if_neg hbc] at *
          simp [charListLeB, if_neg hbc, h2]
        · subst hbc
          simp only [charListLeB, if_neg hab, if_pos rfl] at *
          simp [charListLeB, if_neg hab, h1]
        · simp only [charListLeB, if_neg hab, if_neg hbc] at h1 h2
          have hac : charLtB a c = true := charLtB_trans a b c h1 h2
          have hne : a ≠ c := charLtB_ne a c hac
          simp [charListLeB, if_neg hne, hac]

theorem charListLtB_of_leB_ne :
    ∀ x y : List Char, charListLeB x y = true → x ≠ y → charListLtB x y = true := by
  intro x
  induction x with
  | nil =>
    intro y _ hne
    cases y with
    | nil => exact absurd rfl hne
    | cons b bs => rfl
  | cons a as ih =>
    intro y h hne
    cases y with
    | nil => simp [charListLeB] at h
    | cons b bs =>
      by_cases hab : a = b
      · subst hab
        simp only [charListLeB, if_pos rfl] at h
        simp only [charListLtB, if_pos rfl]
        exact ih bs h (fun he => hne (by rw [he]))
      · simp only [charListLeB, if_neg hab] at h
        simp only [charListLtB, if_neg hab]
        exact h

theorem charListLtB_asymm :
    ∀ x y : List Char, charListLtB x y = true → charListLtB y x = false := by
  intro x
  induction x with
  | nil =>
    intro y h
    cases y with
    | nil => simp [charListLtB] at h
    | cons b bs => rfl
  | cons a as ih =>
    intro y h
    cases y with
    | nil => simp [charListLtB] at h
    | cons b bs =>
      by_cases hab : a = b
      · subst hab
        simp only [charListLtB, if_pos rfl] at *
        exact ih bs h
      · simp only [charListLtB, if_neg hab] at h
        simp only [charListLtB, if_neg (Ne.symm hab)]
        exact charLtB_asymm a b h

theorem KLE_total : ∀ p q : String × Value, KLE p q ∨ KLE q p := fun p q => by
  unfold KLE strLeB
  exact charListLeB_total p.1.data q.1.data

theorem KLE_trans : ∀ p q r : String × Value, KLE p q → KLE q r → KLE p r :=
  fun p q r h1 h2 => by
    unfold KLE strLeB at *
    exact charListLeB_trans p.1.data q.1.data r.1.data h1 h2

theorem KLT_antisymm : ∀ p q : String × Value, KLT p q → KLT q p → p = q :=
  fun p q h1 h2 => by
    unfold KLT strLtB at *
    rw [charListLtB_asymm p.1.data q.1.data h1] at h2
    exact absurd h2 (by simp)

theorem sortK_perm (l : Entries) : List.Perm (sortK l) l :=
  List.perm_insertionSort KLE l

theorem sortK_sorted (l : Entries) : List.Sorted KLE (sortK l) :=
  @List.sorted_insertionSort _ KLE _ ⟨KLE_total⟩ ⟨KLE_trans⟩ l

theorem pwNeKeys_perm (l₁ l₂ : Entries) (h : List.Perm l₁ l₂) :
    pwNeKeys l₁ ↔ pwNeKeys l₂ :=
  h.pairwise_iff (fun {_ _} hab => Ne.symm hab)

theorem hasKey_eq_false_iff (l : Entries) (k : String) :
    hasKey l k = false ↔ ∀ p ∈ l, p.1 ≠ k := by
  unfold hasKey
  rw [← Bool.not_eq_true, List.any_eq_true]
  constructor
  · intro h p hp
    exact fun he => h ⟨p, hp, by simp [he]⟩
  · rintro h ⟨p, hp, hbeq⟩
    exact h p hp (by simpa using hbeq)

theorem nodupKeysB_pairwise (l : Entries) (h : nodupKeysB l = true) : pwNeKeys l := by
  induction l with
  | nil => exact List.Pairwise.nil
  | cons p rest ih =>
    match p with
    | (k, v) =>
      simp only [nodupKeysB, Bool.and_eq_true] at h
      refine List.Pairwise.cons ?_ (ih h.2)
      intro q hq
      have := (hasKey_eq_false_iff rest k).mp (by simpa using h.1) q hq
      exact fun he => this (he.symm)

theorem sorted_KLT_of_KLE (l : Entries) (hs : List.Sorted KLE l) (hne : pwNeKeys l) :
    List.Sorted KLT l := by
  induction l with
  | nil => exact List.sorted_nil
  | cons p rest ih =>
    rw [List.sorted_cons] at hs ⊢
    rw [pwNeKeys, List.pairwise_cons] at hne
    refine ⟨?_, ih hs.2 hne.2⟩
    intro q hq
    have hle := hs.1 q hq
    have hneq := hne.1 q hq
    unfold KLE strLeB at hle
    unfold KLT strLtB
    refine charListLtB_of_leB_ne p.1.data q.1.data hle ?_
    intro he
    exact hneq (String.ext he)

theorem sortK_congr_perm (l₁ l₂ : Entries) (hp : List.Perm l₁ l₂) (hnd : pwNeKeys l₂) :
    sortK l₁ = sortK l₂ := by
  have h1 : List.Perm (sortK l₁) (sortK l₂) :=
    ((sortK_perm l₁).trans hp).trans (sortK_perm l₂).symm
  have hnd1 : pwNeKeys (sortK l₁) :=
    (pwNeKeys_perm (sortK l₁) l₂ ((sortK_perm l₁).trans hp)).mpr hnd
  have hnd2 : pwNeKeys (sortK l₂) := (pwNeKeys_perm (sortK l₂) l₂ (sortK_perm l₂)).mpr hnd
  exact @List.eq_of_perm_of_sorted _ KLT ⟨KLT_antisymm⟩ _ _ h1
    (sorted_KLT_of_KLE _ (sortK_sorted l₁) hnd1)
    (sorted_KLT_of_KLE _ (sortK_sorted l₂) hnd2)

theorem perm_any (l₁ l₂ : Entries) (h : List.Perm l₁ l₂) (f : String × Value → Bool) :
    l₁.any f = l₂.any f := by
  induction h with
  | nil => rfl
  | cons x _ ih => simp [List.any_cons, ih]
  | swap x y l =>
    simp only [List.any_cons]
    rw [← Bool.or_assoc, Bool.or_comm (f y) (f x), Bool.or_assoc]
  | trans _ _ ih1 ih2 => exact ih1.trans ih2

theorem perm_all (l₁ l₂ : Entries) (h : List.Perm l₁ l₂) (f : String × Value → Bool) :
    l₁.all f = l₂.all f := by
  induction h with
  | nil => rfl
  | cons x _ ih => simp [List.all_cons, ih]
  | swap x y l =>
    simp only [List.all_cons]
    rw [← Bool.and_assoc, Bool.and_comm (f y) (f x), Bool.and_assoc]
  | trans _ _ ih1 ih2 => exact ih1.trans ih2

theorem hasKey_sortK (l : Entries) (k : String) : hasKey (sortK l) k = hasKey l k :=
  perm_any (sortK l) l (sortK_perm l) _

/-! ## Claim C4 -/

/-- Claim C4: when `BaseObject.update` receives both a non-empty mapping and
keyword overrides, both data sets are discarded — the attributes are returned
unchanged (the source stores `dict(__d).update(**kwargs)`, which is `None`,
and `None.items()` raises before any `setattr` runs). -/
theorem C4_update_both_discards (env : Env) (attrs d kw : Entries)
    (hd : d ≠ []) (hkw : kw ≠ []) :
    baseObjUpdate env attrs d kw = (attrs, some .attrError) := by
  cases d with
  | nil => exact absurd rfl hd
  | cons p d2 =>
    cases kw with
    | nil => exact absurd rfl hkw
    | cons q kw2 => rfl

/-- Witness for C4 at a concrete input. -/
theorem C4_witness :
    ([(("a" : String), Value.vnum 1)] ≠ ([] : Entries)) ∧
    ([(("b" : String), Value.vnum 2)] ≠ ([] : Entries)) ∧
    baseObjUpdate envD [] [("a", .vnum 1)] [("b", .vnum 2)] = ([], some .attrError) :=
  ⟨by simp, by simp, C4_update_both_discards envD [] [("a", .vnum 1)] [("b", .vnum 2)]
    (by simp) (by simp)⟩

/-! ## Claim C5 -/

/-- Claim C5: `restore()` with an absent key file raises nothing and leaves
every part of the store's state (attributes, path fields, cached raw mapping)
unchanged. -/
theorem C5_restore_absent_key_noop (env : Env) (fs : FS) (c : ConfigState)
    (h : fsGet fs (renderAbs c.keyPathC) = none) :
    restoreC env fs c = (c, none) := by
  unfold restoreC
  rw [h]

/-- Witness for C5 on an empty filesystem. -/
theorem C5_witness :
    fsGet [] (renderAbs cD.keyPathC) = none ∧ restoreC envD [] cD = (cD, none) :=
  ⟨rfl, C5_restore_absent_key_noop envD [] cD rfl⟩

/-! ## Claim C10 -/

/-- Claim C10: when the key file exists as a regular file but the save target
does not, `restore()` raises `FileNotFoundError` (from
`self._save_path_.read_bytes()` in `_decrypt`) rather than the silent no-op,
and the store's state is unchanged by the failed call. -/
theorem C10_restore_missing_target (env : Env) (fs : FS) (c : ConfigState) (kd : FileData)
    (hk : fsGet fs (renderAbs c.keyPathC) = some (.fileE kd))
    (hs : fsGet fs (renderAbs c.savePathC) = none) :
    restoreC env fs c = (c, some .fileNotFound) := by
  unfold restoreC
  rw [hk, hs]

/-- Witness for C10: key file present at `/tmp/key`, nothing at `/tmp/cfg`. -/
theorem C10_witness :
    fsGet [("/tmp/key", .fileE (.keyF 7))] (renderAbs cD.keyPathC)
        = some (.fileE (.keyF 7)) ∧
    fsGet [("/tmp/key", .fileE (.keyF 7))] (renderAbs cD.savePathC) = none ∧
    restoreC envD [("/tmp/key", .fileE (.keyF 7))] cD = (cD, some .fileNotFound) :=
  ⟨rfl, rfl, C10_restore_missing_target envD _ cD (.keyF 7) rfl rfl⟩

/-! ## Claim C6 -/

/-- Claim C6: loading an existing regular file whose suffix is neither
`.json` nor `.toml` raises the unsupported-format error
(`NotImplementedError("Unknown file type")`), and the store's attributes and
cached raw mapping are unchanged by the failed call (the only side effect is
the idempotent creation of the save target's parent directory, which here is
assumed to succeed without change). -/
theorem C6_load_unsupported (env : Env) (fs : FS) (c : ConfigState) (lp : String)
    (fd : FileData)
    (hmk : mkdirSaveParent fs c.savePathC = (fs, none))
    (hf : fsGet fs lp = some (.fileE fd))
    (hj : pathSuffix lp ≠ ".json") (ht : pathSuffix lp ≠ ".toml") :
    loadC env fs c lp = (c, fs, some .unsupportedFormat) := by
  have hj2 : (pathSuffix lp == ".json") = false := by simpa using hj
  have ht2 : (pathSuffix lp == ".toml") = false := by simpa using ht
  unfold loadC
  rw [hmk]
  simp only [hf, hj2, ht2]
  rfl

/-- Witness for C6: a `.yaml` file alongside an existing parent directory. -/
theorem C6_witness :
    mkdirSaveParent [("/tmp", .dirE), ("cfg.yaml", .fileE .rawF)] cD.savePathC
        = ([("/tmp", .dirE), ("cfg.yaml", .fileE .rawF)], none) ∧
    fsGet [("/tmp", .dirE), ("cfg.yaml", .fileE .rawF)] "cfg.yaml"
        = some (.fileE .rawF) ∧
    pathSuffix "cfg.yaml" = ".yaml" ∧
    loadC envD [("/tmp", .dirE), ("cfg.yaml", .fileE .rawF)] cD "cfg.yaml"
        = (cD, [("/tmp", .dirE), ("cfg.yaml", .fileE .rawF)], some .unsupportedFormat) :=
  ⟨rfl, rfl, rfl,
    C6_load_unsupported envD _ cD "cfg.yaml" .rawF rfl rfl (by decide) (by decide)⟩

/-! ## Claim C2 -/

/-- Claim C2 (the code does not do this — see `C2_set_attr_drops_normalization`):
the claim says that `update`/`set_attr` without a `processor_cb` stores path
values normalized.  In the source, `set_attr` computes
`val = BaseConfig.convert_path(k, v)` and then stores
`processor_cb(k, val) if processor_cb else v` — the original `v`, discarding
the normalized `val`.  This theorem evaluates the code at the failing input:
`update({"mypath": "~/x"})` stores the raw `"~/x"` even though the normalized
form exists and differs. -/
theorem C2_set_attr_drops_normalization :
    set_attr envD [] [("mypath", .vstr "~/x")] none
        = ([("mypath", .vstr "~/x")], none) ∧
    bcUpdate envD [] [("mypath", .vstr "~/x")] none []
        = ([("mypath", .vstr "~/x")], none) ∧
    convert_path envD "mypath" (.vstr "~/x") = .ok (.vstr "/home/u/x") ∧
    ("~/x" : String) ≠ "/home/u/x" :=
  ⟨rfl, rfl, rfl, by decide⟩

/-! ### Unfolding equations for the mutual recursions (all definitional) -/

theorem encAttrList_nil : encAttrList [] = [] := rfl

theorem encAttrList_cons (k : String) (v : Value) (rest : Entries) :
    encAttrList ((k, v) :: rest) =
      if privName k then encAttrList rest
      else (k, encodeAttrVal v) :: encAttrList rest := rfl

theorem encodeAttrVal_node (nm : String) (attrs : Entries) :
    encodeAttrVal (.vnode nm attrs) = .vdict (sortK (encAttrList attrs)) := rfl

theorem encodeAttrVal_not_node (v : Value) (h : ∀ nm attrs, v ≠ .vnode nm attrs) :
    encodeAttrVal v = v := by
  cases v with
  | vnode nm attrs => exact absurd rfl (h nm attrs)
  | _ => rfl

theorem isJsonEs_cons (k : String) (v : Value) (rest : Entries) :
    isJsonEs ((k, v) :: rest) = (isJsonV v && isJsonEs rest) := rfl

theorem isJsonV_dict (es : Entries) : isJsonV (.vdict es) = isJsonEs es := rfl

theorem isJsonArr_cons (v : Value) (rest : List Value) :
    isJsonArr (v :: rest) = (isJsonV v && isJsonArr rest) := rfl

theorem processCls_node (nm : String) (attrs : Entries) :
    processCls (.vnode nm attrs) = .vdict (sortK (encAttrList attrs)) := rfl

theorem encodeTop_eq (v : Value) :
    encodeTop v =
      if isJsonV (processCls v) then .ok (processCls v) else .error .typeError := rfl

/-! ## Claim C7 -/

/-- As stated, claim C7 is false: `process_cls` recurses only into values
that have a `__dict__` and keeps every other attribute value as-is, so a
non-JSON builtin attribute value (here a `set`) survives into the base
serializer, whose `default` raises `TypeError` — encoding a node is not
total. -/
theorem C7_counterexample :
    encodeTop (.vnode "X" [("a", .vother "set()")]) = .error .typeError := rfl

/-- Claim C7 amended: the `str(obj)` last resort applies only to the object
passed directly to `process_cls` when it lacks a `__dict__`; an attribute
value that is neither a node nor JSON-representable is passed through
unchanged, and full encoding (`json.dumps` with `MapEncoder`) then raises
`TypeError` — encode is not total over arbitrary attribute values. -/
theorem C7_encode_not_total (nm k s : String) (hk : privName k = false) :
    processCls (.vother s) = .vstr s ∧
    encodeAttrVal (.vother s) = .vother s ∧
    encodeTop (.vnode nm [(k, .vother s)]) = .error .typeError := by
  refine ⟨rfl, rfl, ?_⟩
  rw [encodeTop_eq, processCls_node, encAttrList_cons, hk]
  simp only [encAttrList_nil, Bool.false_eq_true, if_false]
  have hsort : sortK [(k, encodeAttrVal (.vother s))] = [(k, .vother s)] := rfl
  rw [hsort]
  rfl

/-- Witness for the amended C7. -/
theorem C7_witness :
    privName "a" = false ∧
    (processCls (.vother "set()") = .vstr "set()" ∧
     encodeAttrVal (.vother "set()") = .vother "set()" ∧
     encodeTop (.vnode "X" [("a", .vother "set()")]) = .error .typeError) :=
  ⟨rfl, C7_encode_not_total "X" "a" "set()" rfl⟩

theorem jsonDecode_dict (env : Env) (es : Entries) :
    jsonDecode env (.vdict es) =
      match jdEntries env es with
      | .error e => .error e
      | .ok es2 =>
        match hookEntries env es2 [] with
        | .error e => .error e
        | .ok rv => .ok (.vdict rv) := rfl

theorem jsonDecode_arr (env : Env) (xs : List Value) :
    jsonDecode env (.varr xs) =
      match jdList env xs with
      | .error e => .error e
      | .ok ys => .ok (.varr ys) := rfl

theorem jsonDecode_scalar (env : Env) (v : Value) (h : isScalar v = true) :
    jsonDecode env v = .ok v := by
  cases v <;> first | rfl | exact absurd h (by simp [isScalar])

theorem jdList_cons (env : Env) (v : Value) (rest : List Value) :
    jdList env (v :: rest) =
      match jsonDecode env v with
      | .error e => .error e
      | .ok v2 =>
        match jdList env rest with
        | .error e => .error e
        | .ok tail => .ok (v2 :: tail) := rfl

theorem jdList_scalars (env : Env) :
    ∀ xs : List Value, (∀ v ∈ xs, isScalar v = true) → jdList env xs = .ok xs := by
  intro xs
  induction xs with
  | nil => intro _; rfl
  | cons v rest ih =>
    intro h
    rw [jdList_cons, jsonDecode_scalar env v (h v (by simp)),
      ih (fun w hw => h w (by simp [hw]))]

/-- As stated, claim C9 is false for the decoder the program actually runs
(`json.loads` with the `MapDecoder`/`ConfigDecoder` object hook): the hook is
applied to every JSON object, including objects inside arrays, so a mapping
element of a sequence does not stay raw — its own mapping-valued entries are
converted to nodes.  Here `{"k": [{"a": {"b": 1}}]}` decodes with the inner
`{"b": 1}` turned into a node. -/
theorem C9_counterexample :
    jsonDecode envD (.vdict [("k", .varr [.vdict [("a", .vdict [("b", .vnum 1)])]])])
      = .ok (.vdict [("k", .varr [.vdict [("a", .vnode "A" [("b", .vnum 1)])]])]) ∧
    (Value.vdict [("a", .vnode "A" [("b", .vnum 1)])])
      ≠ .vdict [("a", .vdict [("b", .vnum 1)])] :=
  ⟨rfl, by simp⟩

/-- Claim C9 amended: decode never converts a sequence element itself into a
node — `pack_dict` passes sequences through entirely untouched, the object
hook keeps sequence-element mappings as mappings (though it converts mapping
values nested inside them to nodes), and sequences of scalars pass through
unchanged. -/
theorem C9_sequences (env : Env) (k : String) (xs : List Value) (es : Entries)
    (r : Value)
    (hxs : ∀ v ∈ xs, isScalar v = true)
    (hr : jsonDecode env (.vdict es) = .ok r) :
    packVal env k (.varr xs) = .ok (.varr xs) ∧
    jsonDecode env (.varr xs) = .ok (.varr xs) ∧
    ∃ es2, r = .vdict es2 := by
  refine ⟨rfl, ?_, ?_⟩
  · rw [jsonDecode_arr, jdList_scalars env xs hxs]
  · rw [jsonDecode_dict] at hr
    split at hr
    · exact absurd hr (by simp)
    · split at hr
      · exact absurd hr (by simp)
      · rename_i rv hrv
        injection hr with h2
        exact ⟨rv, h2.symm⟩

/-- Witness for the amended C9. -/
theorem C9_witness :
    (∀ v ∈ [Value.vnum 1, Value.vstr "x"], isScalar v = true) ∧
    jsonDecode envD (.vdict [("a", .vnum 1)]) = .ok (.vdict [("a", .vnum 1)]) ∧
    (packVal envD "k" (.varr [Value.vnum 1, Value.vstr "x"])
        = .ok (.varr [Value.vnum 1, Value.vstr "x"]) ∧
     jsonDecode envD (.varr [Value.vnum 1, Value.vstr "x"])
        = .ok (.varr [Value.vnum 1, Value.vstr "x"]) ∧
     ∃ es2, Value.vdict [("a", Value.vnum 1)] = .vdict es2) :=
  ⟨by decide, rfl,
    C9_sequences envD "k" [Value.vnum 1, Value.vstr "x"] [("a", .vnum 1)]
      (.vdict [("a", .vnum 1)]) (by decide) rfl⟩

/-! ## Claim C3 -/

theorem hasKey_nil (k : String) : hasKey [] k = false := rfl

theorem hasKey_cons (k2 : String) (v : Value) (rest : Entries) (k : String) :
    hasKey ((k2, v) :: rest) k = ((k2 == k) || hasKey rest k) := by
  simp [hasKey]

theorem hasKey_append (a b : Entries) (k : String) :
    hasKey (a ++ b) k = (hasKey a k || hasKey b k) := by
  simp [hasKey]

/-- Membership in the encoded attribute list: a name survives encoding
exactly when it is a member name that is not private. -/
theorem hasKey_encAttrList (attrs : Entries) (k : String) :
    hasKey (encAttrList attrs) k = (hasKey attrs k && !privName k) := by
  induction attrs with
  | nil => simp [encAttrList_nil, hasKey_nil]
  | cons p rest ih =>
    match p with
    | (k2, v) =>
      rw [encAttrList_cons, hasKey_cons]
      by_cases hp : privName k2 = true
      · rw [if_pos hp, ih]
        by_cases hk2 : (k2 == k) = true
        · have : k2 = k := by simpa using hk2
          subst this
          simp [hp]
        · simp only [hk2, Bool.false_or]
      · rw [if_neg hp, hasKey_cons, ih]
        by_cases hk2 : (k2 == k) = true
        · have : k2 = k := by simpa using hk2
          subst this
          simp only [Bool.not_eq_true] at hp
          simp [hp]
        · simp only [hk2, Bool.false_or]

/-- As stated, claim C3 is false for the Store: `Config` defines the
`save_path` and `key_path` properties, which `getmembers` evaluates as
ordinary non-callable members, so the save-target and key-file paths appear
in the encoded output (under the property names). -/
theorem C3_counterexample :
    encodeConfig cD = [("key_path", .vstr "/tmp/key"), ("save_path", .vstr "/tmp/cfg")] ∧
    renderAbs cD.savePathC = "/tmp/cfg" ∧ renderAbs cD.keyPathC = "/tmp/key" :=
  ⟨rfl, rfl, rfl⟩

/-- Claim C3 amended: for every node, an attribute name appears in the
encoded mapping iff it is present and does not both start and end with `_`;
for the Store, additionally the property names `save_path` and `key_path`
always appear (carrying the save-target and key-file paths), while the
private attributes `_save_path_`, `_key_path_` and the raw-mapping cache
`_converted_` never appear under their own names (and no load-source
attribute exists at all). -/
theorem C3_exclusion_rule (attrs : Entries) (c : ConfigState) (k : String) :
    hasKey (encodeAttrs attrs) k = (hasKey attrs k && !privName k) ∧
    hasKey (encodeConfig c) k =
      ((hasKey c.attrs k && !privName k) || (k == "save_path") || (k == "key_path")) := by
  constructor
  · unfold encodeAttrs
    rw [hasKey_sortK, hasKey_encAttrList]
  · unfold encodeConfig
    rw [hasKey_sortK, hasKey_append, hasKey_encAttrList, hasKey_cons, hasKey_cons, hasKey_nil]
    by_cases h1 : k = "save_path"
    · subst h1
      simp
    · by_cases h2 : k = "key_path"
      · subst h2
        simp
      · have h1b : (("save_path" : String) == k) = false := by
          simp only [beq_eq_false_iff_ne]
          exact fun he => h1 he.symm
        have h2b : (("key_path" : String) == k) = false := by
          simp only [beq_eq_false_iff_ne]
          exact fun he => h2 he.symm
        have h1c : (k == ("save_path" : String)) = false := by
          simp only [beq_eq_false_iff_ne]
          exact h1
        have h2c : (k == ("key_path" : String)) = false := by
          simp only [beq_eq_false_iff_ne]
          exact h2
        simp [h1b, h2b, h1c, h2c]

/-! ## Claim C8 -/

/-- Claim C8: the Path Normalizer is idempotent — whenever normalizing a
value under a key containing `"path"` succeeds, normalizing the result again
returns it unchanged. -/
theorem convert_path_path_str (env : Env) (k s : String)
    (hk : containsSub k "path" = true) :
    convert_path env k (.vstr s) =
      match pathNormStr env s with
      | .error e => .error e
      | .ok t => .ok (.vstr t) := by
  unfold convert_path
  rw [if_pos hk]

theorem C8_normalize_idempotent (env : Env) (henv : envWF env = true) (k : String)
    (hk : containsSub k "path" = true) (v w : Value)
    (h : convert_path env k v = .ok w) : convert_path env k w = .ok w := by
  cases v with
  | vstr s =>
    rw [convert_path_path_str env k s hk] at h
    cases hn : pathNormStr env s with
    | error e =>
      rw [hn] at h
      exact absurd h (by simp)
    | ok t =>
      rw [hn] at h
      have h3 : Except.ok (Value.vstr t) = Except.ok w := h
      injection h3 with h2
      subst h2
      rw [convert_path_path_str env k t hk, pathNorm_idem_helper env henv s t hn]
  | vnull => unfold convert_path at h; rw [if_pos hk] at h; exact absurd h (by simp)
  | vbool b => unfold convert_path at h; rw [if_pos hk] at h; exact absurd h (by simp)
  | vnum n => unfold convert_path at h; rw [if_pos hk] at h; exact absurd h (by simp)
  | varr xs => unfold convert_path at h; rw [if_pos hk] at h; exact absurd h (by simp)
  | vdict es => unfold convert_path at h; rw [if_pos hk] at h; exact absurd h (by simp)
  | vnode nm attrs => unfold convert_path at h; rw [if_pos hk] at h; exact absurd h (by simp)
  | vother s2 => unfold convert_path at h; rw [if_pos hk] at h; exact absurd h (by simp)

/-- Witness for C8: normalizing `~/p/../q` (home `/home/u`) and then
re-normalizing the result. -/
theorem C8_witness :
    envWF envD = true ∧ containsSub "key_path" "path" = true ∧
    convert_path envD "key_path" (.vstr "~/p/../q") = .ok (.vstr "/home/u/q") ∧
    convert_path envD "key_path" (.vstr "/home/u/q") = .ok (.vstr "/home/u/q") :=
  ⟨by decide, by decide, rfl,
    C8_normalize_idempotent envD (by decide) "key_path" (by decide)
      (.vstr "~/p/../q") (.vstr "/home/u/q") rfl⟩

/-! ## Claim C1: the decode/encode round trip

The proof proceeds in stages: (1) the faithful accumulator loops
(`path_resolveAux`, `packEntriesAux`) coincide with their accumulator-free
unfoldings on duplicate-free mappings; (2) `path_resolve` output satisfies
the `goodE` invariant (JSON-shaped, duplicate-free, path values already
normalized); (3) decoding a `goodE` mapping and re-encoding it is the
identity up to `canon` (key order and private names). -/

theorem aUpdate_append (l : Entries) (k : String) (v : Value)
    (h : hasKey l k = false) : aUpdate l k v = l ++ [(k, v)] := by
  induction l with
  | nil => rfl
  | cons p rest ih =>
    match p with
    | (k2, v2) =>
      rw [hasKey_cons] at h
      rcases Bool.or_eq_false_iff.mp h with ⟨h1, h2⟩
      show (if k2 == k then (k2, v) :: rest else (k2, v2) :: aUpdate rest k v) = _
      rw [h1, ih h2]
      simp

theorem nodupKeysB_cons (k : String) (v : Value) (rest : Entries) :
    nodupKeysB ((k, v) :: rest) = (!hasKey rest k && nodupKeysB rest) := rfl

theorem wfJEs_cons (k : String) (v : Value) (rest : Entries) :
    wfJEs ((k, v) :: rest) = (wfJV v && wfJEs rest) := rfl

theorem wfJV_dict (es : Entries) : wfJV (.vdict es) = (nodupKeysB es && wfJEs es) := rfl

theorem goodE_cons (env : Env) (k : String) (v : Value) (rest : Entries) :
    goodE env ((k, v) :: rest) = (goodV env k v && goodE env rest) := rfl

theorem goodV_dict (env : Env) (k : String) (es : Entries) :
    goodV env k (.vdict es) = (nodupKeysB es && goodE env es) := by
  have h : goodV env k (.vdict es) =
      if containsSub k "path" then (nodupKeysB es && goodE env es)
      else (nodupKeysB es && goodE env es) := rfl
  rw [h, ite_self]

theorem path_resolveAux_nil (env : Env) (acc : Entries) :
    path_resolveAux env [] acc = .ok acc := rfl

theorem path_resolveAux_cons (env : Env) (k : String) (v : Value) (rest acc : Entries) :
    path_resolveAux env ((k, v) :: rest) acc =
      match path_resolveV env k v with
      | .error e => .error e
      | .ok v2 => path_resolveAux env rest (aUpdate acc k v2) := rfl

theorem path_resolveL_nil (env : Env) : path_resolveL env [] = .ok [] := rfl

theorem path_resolveL_cons (env : Env) (k : String) (v : Value) (rest : Entries) :
    path_resolveL env ((k, v) :: rest) =
      match path_resolveVL env k v with
      | .error e => .error e
      | .ok v2 =>
        match path_resolveL env rest with
        | .error e => .error e
        | .ok tail => .ok ((k, v2) :: tail) := rfl

theorem path_resolveV_dict (env : Env) (k : String) (es : Entries) :
    path_resolveV env k (.vdict es) =
      match path_resolveAux env es [] with
      | .error e => .error e
      | .ok rv => .ok (.vdict rv) := rfl

theorem path_resolveVL_dict (env : Env) (k : String) (es : Entries) :
    path_resolveVL env k (.vdict es) =
      match path_resolveL env es with
      | .error e => .error e
      | .ok rv => .ok (.vdict rv) := rfl

mutual
theorem path_resolveV_eq (env : Env) (k : String) :
    ∀ (v : Value), wfJV v = true → path_resolveV env k v = path_resolveVL env k v
  | .vdict es, h => by
      rw [wfJV_dict, Bool.and_eq_true] at h
      rw [path_resolveV_dict, path_resolveVL_dict,
        path_resolveAux_eq env es [] h.1 h.2 (fun k2 _ => rfl)]
      cases hres : path_resolveL env es with
      | error e => rfl
      | ok r => simp
  | .vnull, _ => rfl
  | .vbool b, _ => rfl
  | .vnum n, _ => rfl
  | .vstr s, _ => rfl
  | .varr xs, _ => rfl
  | .vnode nm attrs, _ => rfl
  | .vother s, _ => rfl

theorem path_resolveAux_eq (env : Env) :
    ∀ (l acc : Entries), nodupKeysB l = true → wfJEs l = true →
      (∀ k2, hasKey l k2 = true → hasKey acc k2 = false) →
      path_resolveAux env l acc =
        match path_resolveL env l with
        | .error e => .error e
        | .ok r => .ok (acc ++ r)
  | [], acc, _, _, _ => by
      rw [path_resolveAux_nil, path_resolveL_nil]
      simp
  | (k, v) :: rest, acc, hnd, hwf, hdisj => by
      rw [nodupKeysB_cons, Bool.and_eq_true] at hnd
      rw [wfJEs_cons, Bool.and_eq_true] at hwf
      rw [path_resolveAux_cons, path_resolveL_cons, path_resolveV_eq env k v hwf.1]
      cases hres : path_resolveVL env k v with
      | error e => rfl
      | ok v2 =>
        dsimp only
        have hacc : hasKey acc k = false := hdisj k (by rw [hasKey_cons]; simp)
        rw [aUpdate_append acc k v2 hacc]
        have hdisj2 : ∀ k2, hasKey rest k2 = true →
            hasKey (acc ++ [(k, v2)]) k2 = false := by
          intro k2 hk2
          rw [hasKey_append, hasKey_cons, hasKey_nil]
          have h1 : hasKey acc k2 = false := hdisj k2 (by rw [hasKey_cons]; simp [hk2])
          have h2 : (k == k2) = false := by
            rcases Bool.eq_false_or_eq_true (k == k2) with hb | hb
            · have : k = k2 := by simpa using hb
              subst this
              rw [hk2] at hnd
              exact absurd hnd.1 (by simp)
            · exact hb
          simp [h1, h2]
        rw [path_resolveAux_eq env rest (acc ++ [(k, v2)]) hnd.2 hwf.2 hdisj2]
        cases hres2 : path_resolveL env rest with
        | error e => rfl
        | ok r => simp
end

theorem packEntriesAux_nil (env : Env) (acc : Entries) :
    packEntriesAux env [] acc = .ok acc := rfl

theorem packEntriesAux_cons (env : Env) (k : String) (v : Value) (rest acc : Entries) :
    packEntriesAux env ((k, v) :: rest) acc =
      match packVal env k v with
      | .error e => .error e
      | .ok v1 =>
        match convert_path env k v1 with
        | .error e => .error e
        | .ok pv => packEntriesAux env rest (aUpdate acc k (if truthy pv then pv else v1)) := rfl

theorem packL_nil (env : Env) : packL env [] = .ok [] := rfl

theorem packL_cons (env : Env) (k : String) (v : Value) (rest : Entries) :
    packL env ((k, v) :: rest) =
      match packValL env k v with
      | .error e => .error e
      | .ok v1 =>
        match convert_path env k v1 with
        | .error e => .error e
        | .ok pv =>
          match packL env rest with
          | .error e => .error e
          | .ok tail => .ok ((k, if truthy pv then pv else v1) :: tail) := rfl

theorem packVal_dict (env : Env) (k : String) (es : Entries) :
    packVal env k (.vdict es) =
      match packEntriesAux env es [] with
      | .error e => .error e
      | .ok attrs => .ok (.vnode (capitalizeStr k) attrs) := rfl

theorem packValL_dict (env : Env) (k : String) (es : Entries) :
    packValL env k (.vdict es) =
      match packL env es with
      | .error e => .error e
      | .ok attrs => .ok (.vnode (capitalizeStr k) attrs) := rfl

mutual
theorem packVal_eq (env : Env) (k : String) :
    ∀ (v : Value), goodV env k v = true → packVal env k v = packValL env k v
  | .vdict es, h => by
      rw [goodV_dict, Bool.and_eq_true] at h
      rw [packVal_dict, packValL_dict,
        packAux_eq env es [] h.1 h.2 (fun k2 _ => rfl)]
      cases hres : packL env es with
      | error e => rfl
      | ok r => simp
  | .vnull, _ => rfl
  | .vbool b, _ => rfl
  | .vnum n, _ => rfl
  | .vstr s, _ => rfl
  | .varr xs, _ => rfl
  | .vnode nm attrs, _ => rfl
  | .vother s, _ => rfl

theorem packAux_eq (env : Env) :
    ∀ (l acc : Entries), nodupKeysB l = true → goodE env l = true →
      (∀ k2, hasKey l k2 = true → hasKey acc k2 = false) →
      packEntriesAux env l acc =
        match packL env l with
        | .error e => .error e
        | .ok r => .ok (acc ++ r)
  | [], acc, _, _, _ => by
      rw [packEntriesAux_nil, packL_nil]
      simp
  | (k, v) :: rest, acc, hnd, hg, hdisj => by
      rw [nodupKeysB_cons, Bool.and_eq_true] at hnd
      rw [goodE_cons, Bool.and_eq_true] at hg
      rw [packEntriesAux_cons, packL_cons, packVal_eq env k v hg.1]
      cases hres : packValL env k v with
      | error e => rfl
      | ok v1 =>
        dsimp only
        cases hpv : convert_path env k v1 with
        | error e => rfl
        | ok pv =>
          dsimp only
          have hacc : hasKey acc k = false := hdisj k (by rw [hasKey_cons]; simp)
          rw [aUpdate_append acc k _ hacc]
          have hdisj2 : ∀ k2, hasKey rest k2 = true →
              hasKey (acc ++ [(k, if truthy pv then pv else v1)]) k2 = false := by
            intro k2 hk2
            rw [hasKey_append, hasKey_cons, hasKey_nil]
            have h1 : hasKey acc k2 = false := hdisj k2 (by rw [hasKey_cons]; simp [hk2])
            have h2 : (k == k2) = false := by
              rcases Bool.eq_false_or_eq_true (k == k2) with hb | hb
              · have : k = k2 := by simpa using hb
                subst this
                rw [hk2] at hnd
                exact absurd hnd.1 (by simp)
              · exact hb
            simp [h1, h2]
          rw [packAux_eq env rest (acc ++ [(k, if truthy pv then pv else v1)]) hnd.2 hg.2 hdisj2]
          cases hres2 : packL env rest with
          | error e => rfl
          | ok r => simp
end

theorem wfJArr_cons (v : Value) (rest : List Value) :
    wfJArr (v :: rest) = (wfJV v && wfJArr rest) := rfl

mutual
theorem wfJV_isJson : ∀ v : Value, wfJV v = true → isJsonV v = true
  | .vnull, _ => rfl
  | .vbool b, _ => rfl
  | .vnum n, _ => rfl
  | .vstr s, _ => rfl
  | .varr xs, h => wfJArr_isJson xs (by simpa [wfJV] using h)
  | .vdict es, h => by
      rw [wfJV_dict, Bool.and_eq_true] at h
      rw [isJsonV_dict]
      exact wfJEs_isJson es h.2
  | .vnode nm attrs, h => by simp [wfJV] at h
  | .vother s, h => by simp [wfJV] at h

theorem wfJArr_isJson : ∀ xs : List Value, wfJArr xs = true → isJsonArr xs = true
  | [], _ => rfl
  | v :: rest, h => by
      rw [wfJArr_cons, Bool.and_eq_true] at h
      rw [isJsonArr_cons, Bool.and_eq_true]
      exact ⟨wfJV_isJson v h.1, wfJArr_isJson rest h.2⟩

theorem wfJEs_isJson : ∀ l : Entries, wfJEs l = true → isJsonEs l = true
  | [], _ => rfl
  | (k, v) :: rest, h => by
      rw [wfJEs_cons, Bool.and_eq_true] at h
      rw [isJsonEs_cons, Bool.and_eq_true]
      exact ⟨wfJV_isJson v h.1, wfJEs_isJson rest h.2⟩
end

theorem goodV_str (env : Env) (k s : String) :
    goodV env k (.vstr s) =
      if containsSub k "path" then
        (match pathNormStr env s with
         | .ok t => t == s
         | .error _ => false)
      else true := rfl

theorem goodV_null (env : Env) (k : String) :
    goodV env k .vnull = if containsSub k "path" then false else true := rfl

theorem goodV_bool (env : Env) (k : String) (b : Bool) :
    goodV env k (.vbool b) = if containsSub k "path" then false else true := rfl

theorem goodV_num (env : Env) (k : String) (n : Int) :
    goodV env k (.vnum n) = if containsSub k "path" then false else true := rfl

theorem goodV_arr (env : Env) (k : String) (xs : List Value) :
    goodV env k (.varr xs) = if containsSub k "path" then false else isJsonArr xs := rfl

theorem convert_path_nonpath (env : Env) (k : String) (v : Value)
    (h : containsSub k "path" = false) : convert_path env k v = .ok v := by
  unfold convert_path
  rw [if_neg (by simp [h])]

theorem hasKey_keys (l : Entries) (k : String) :
    hasKey l k = (l.map Prod.fst).any (fun s => s == k) := by
  induction l with
  | nil => rfl
  | cons p rest ih =>
    show (p.1 == k || hasKey rest k) = (p.1 == k || (rest.map Prod.fst).any fun s => s == k)
    rw [ih]

theorem nodupKeysB_of_keys_eq :
    ∀ (a b : Entries), a.map Prod.fst = b.map Prod.fst → nodupKeysB a = nodupKeysB b
  | [], [], _ => rfl
  | [], (q :: b2), h => by simp at h
  | (p :: a2), [], h => by simp at h
  | (p :: a2), (q :: b2), h => by
      simp only [List.map_cons, List.cons.injEq] at h
      match p, q with
      | (k1, v1), (k2, v2) =>
        rw [nodupKeysB_cons, nodupKeysB_cons]
        have hfst : k1 = k2 := h.1
        subst hfst
        rw [hasKey_keys, hasKey_keys, h.2, nodupKeysB_of_keys_eq a2 b2 h.2]

mutual
theorem pathResolved_goodV (env : Env) (henv : envWF env = true) (k : String) :
    ∀ (v v2 : Value), wfJV v = true → path_resolveVL env k v = .ok v2 →
      goodV env k v2 = true
  | .vdict es, v2, h, hr => by
      rw [wfJV_dict, Bool.and_eq_true] at h
      rw [path_resolveVL_dict] at hr
      cases hres : path_resolveL env es with
      | error e => rw [hres] at hr; exact absurd hr (by simp)
      | ok r =>
        rw [hres] at hr
        have h3 : Except.ok (Value.vdict r) = Except.ok v2 := hr
        injection h3 with h4
        subst h4
        rw [goodV_dict, Bool.and_eq_true]
        have hg := pathResolved_goodE env henv es h.1 h.2 r hres
        exact ⟨hg.2.1, hg.1⟩
  | .vstr s, v2, _, hr => by
      have hvl : path_resolveVL env k (.vstr s) = convert_path env k (.vstr s) := rfl
      rw [hvl] at hr
      by_cases hk : containsSub k "path" = true
      · rw [convert_path_path_str env k s hk] at hr
        cases hn : pathNormStr env s with
        | error e => rw [hn] at hr; exact absurd hr (by simp)
        | ok t =>
          rw [hn] at hr
          have h3 : Except.ok (Value.vstr t) = Except.ok v2 := hr
          injection h3 with h4
          subst h4
          rw [goodV_str, if_pos hk, pathNorm_idem_helper env henv s t hn]
          simp
      · rw [convert_path_nonpath env k _ (by simpa using hk)] at hr
        injection hr with h4
        subst h4
        rw [goodV_str, if_neg hk]
  | .vnull, v2, _, hr => by
      have hvl : path_resolveVL env k .vnull = convert_path env k .vnull := rfl
      rw [hvl] at hr
      by_cases hk : containsSub k "path" = true
      · unfold convert_path at hr
        rw [if_pos hk] at hr
        exact absurd hr (by simp)
      · rw [convert_path_nonpath env k _ (by simpa using hk)] at hr
        injection hr with h4
        subst h4
        rw [goodV_null, if_neg hk]
  | .vbool b, v2, _, hr => by
      have hvl : path_resolveVL env k (.vbool b) = convert_path env k (.vbool b) := rfl
      rw [hvl] at hr
      by_cases hk : containsSub k "path" = true
      · unfold convert_path at hr
        rw [if_pos hk] at hr
        exact absurd hr (by simp)
      · rw [convert_path_nonpath env k _ (by simpa using hk)] at hr
        injection hr with h4
        subst h4
        rw [goodV_bool, if_neg hk]
  | .vnum n, v2, _, hr => by
      have hvl : path_resolveVL env k (.vnum n) = convert_path env k (.vnum n) := rfl
      rw [hvl] at hr
      by_cases hk : containsSub k "path" = true
      · unfold convert_path at hr
        rw [if_pos hk] at hr
        exact absurd hr (by simp)
      · rw [convert_path_nonpath env k _ (by simpa using hk)] at hr
        injection hr with h4
        subst h4
        rw [goodV_num, if_neg hk]
  | .varr xs, v2, h, hr => by
      have hvl : path_resolveVL env k (.varr xs) = convert_path env k (.varr xs) := rfl
      rw [hvl] at hr
      by_cases hk : containsSub k "path" = true
      · unfold convert_path at hr
        rw [if_pos hk] at hr
        exact absurd hr (by simp)
      · rw [convert_path_nonpath env k _ (by simpa using hk)] at hr
        injection hr with h4
        subst h4
        rw [goodV_arr, if_neg hk]
        exact wfJArr_isJson xs (by simpa [wfJV] using h)
  | .vnode nm attrs, v2, h, _ => by simp [wfJV] at h
  | .vother s, v2, h, _ => by simp [wfJV] at h

theorem pathResolved_goodE (env : Env) (henv : envWF env = true) :
    ∀ (l : Entries), nodupKeysB l = true → wfJEs l = true → ∀ (r : Entries),
      path_resolveL env l = .ok r →
      goodE env r = true ∧ nodupKeysB r = true ∧ r.map Prod.fst = l.map Prod.fst
  | [], _, _, r, hr => by
      rw [path_resolveL_nil] at hr
      injection hr with h4
      subst h4
      exact ⟨rfl, rfl, rfl⟩
  | (k, v) :: rest, hnd, hwf, r, hr => by
      rw [nodupKeysB_cons, Bool.and_eq_true] at hnd
      rw [wfJEs_cons, Bool.and_eq_true] at hwf
      rw [path_resolveL_cons] at hr
      cases hres : path_resolveVL env k v with
      | error e => rw [hres] at hr; exact absurd hr (by simp)
      | ok v2 =>
        rw [hres] at hr
        dsimp only at hr
        cases hres2 : path_resolveL env rest with
        | error e => rw [hres2] at hr; exact absurd hr (by simp)
        | ok tail =>
          rw [hres2] at hr
          have h3 : Except.ok ((k, v2) :: tail) = Except.ok r := hr
          injection h3 with h4
          subst h4
          have ihv := pathResolved_goodV env henv k v v2 hwf.1 hres
          have ihe := pathResolved_goodE env henv rest hnd.2 hwf.2 tail hres2
          refine ⟨?_, ?_, ?_⟩
          · rw [goodE_cons, Bool.and_eq_true]
            exact ⟨ihv, ihe.1⟩
          · rw [nodupKeysB_cons, Bool.and_eq_true]
            refine ⟨?_, ihe.2.1⟩
            rw [hasKey_keys, ihe.2.2, ← hasKey_keys]
            simpa using hnd.1
          · simp [ihe.2.2]
end

theorem canonList_nil : canonList [] = [] := rfl

theorem canonList_cons (k : String) (v : Value) (rest : Entries) :
    canonList ((k, v) :: rest) =
      if privName k then canonList rest else (k, canon v) :: canonList rest := rfl

theorem canon_vdict (es : Entries) : canon (.vdict es) = .vdict (sortK (canonList es)) := rfl

theorem canonList_eq (l : Entries) :
    canonList l = (l.filter (fun p => !privName p.1)).map (fun p => (p.1, canon p.2)) := by
  induction l with
  | nil => rfl
  | cons p rest ih =>
    match p with
    | (k, v) =>
      rw [canonList_cons]
      by_cases hp : privName k = true
      · rw [if_pos hp, ih]
        simp [List.filter_cons, hp]
      · rw [if_neg hp]
        simp only [Bool.not_eq_true] at hp
        simp [List.filter_cons, hp, ih]

theorem canonList_perm (l₁ l₂ : Entries) (h : List.Perm l₁ l₂) :
    List.Perm (canonList l₁) (canonList l₂) := by
  rw [canonList_eq, canonList_eq]
  exact (h.filter _).map _

theorem pwNeKeys_canonList (l : Entries) (h : pwNeKeys l) : pwNeKeys (canonList l) := by
  rw [canonList_eq]
  unfold pwNeKeys
  rw [List.pairwise_map]
  exact List.Pairwise.sublist (List.filter_sublist l) h

theorem isJsonEs_eq_all (l : Entries) : isJsonEs l = l.all (fun p => isJsonV p.2) := by
  induction l with
  | nil => rfl
  | cons p rest ih =>
    match p with
    | (k, v) =>
      rw [isJsonEs_cons, ih]
      rfl

/-- Re-encoding a decoded node agrees with the original mapping up to
`canon`, given that the entry lists already agree. -/
theorem canon_sort_encode (A es : Entries) (hc : canonList (encAttrList A) = canonList es)
    (hnd : nodupKeysB es = true) :
    canon (.vdict (sortK (encAttrList A))) = canon (.vdict es) := by
  rw [canon_vdict, canon_vdict]
  congr 1
  apply sortK_congr_perm
  · exact hc ▸ canonList_perm _ _ (sortK_perm (encAttrList A))
  · exact pwNeKeys_canonList es (nodupKeysB_pairwise es hnd)

theorem convert_path_path_node (env : Env) (k nm : String) (attrs : Entries)
    (hk : containsSub k "path" = true) :
    convert_path env k (.vnode nm attrs) = .error .typeError := by
  unfold convert_path
  rw [if_pos hk]

mutual
/-- Round trip, value level: a decoded-and-processed value re-encodes to the
original (canonically), and is JSON-serializable. -/
theorem rt_val (env : Env) (k : String) :
    ∀ (v v1 pv : Value), goodV env k v = true →
      packValL env k v = .ok v1 → convert_path env k v1 = .ok pv →
      canon (encodeAttrVal (if truthy pv then pv else v1)) = canon v ∧
      isJsonV (encodeAttrVal (if truthy pv then pv else v1)) = true
  | .vdict es, v1, pv, hg, hv1, hpv => by
      rw [goodV_dict, Bool.and_eq_true] at hg
      rw [packValL_dict] at hv1
      cases hA : packL env es with
      | error e => rw [hA] at hv1; exact absurd hv1 (by simp)
      | ok A =>
        rw [hA] at hv1
        have h3 : Except.ok (Value.vnode (capitalizeStr k) A) = Except.ok v1 := hv1
        injection h3 with h4
        subst h4
        by_cases hk : containsSub k "path" = true
        · rw [convert_path_path_node env k _ _ hk] at hpv
          exact absurd hpv (by simp)
        · rw [convert_path_nonpath env k _ (by simpa using hk)] at hpv
          injection hpv with h5
          subst h5
          have htr : truthy (Value.vnode (capitalizeStr k) A) = true := rfl
          rw [htr, if_pos rfl, encodeAttrVal_node]
          have hrt := rt_entries env es hg.2 A hA
          constructor
          · exact canon_sort_encode A es hrt.1 hg.1
          · rw [isJsonV_dict, isJsonEs_eq_all,
              perm_all (sortK (encAttrList A)) (encAttrList A) (sortK_perm _) _]
            exact hrt.2
  | .vstr s, v1, pv, hg, hv1, hpv => by
      have h3 : Except.ok (Value.vstr s) = Except.ok v1 := hv1
      injection h3 with h4
      subst h4
      rw [goodV_str] at hg
      by_cases hk : containsSub k "path" = true
      · rw [if_pos hk] at hg
        cases hn : pathNormStr env s with
        | error e => rw [hn] at hg; exact absurd hg (by simp)
        | ok t =>
          rw [hn] at hg
          have hts : t = s := by simpa using hg
          rw [convert_path_path_str env k s hk, hn] at hpv
          have h5 : Except.ok (Value.vstr t) = Except.ok pv := hpv
          injection h5 with h6
          rw [← h6, hts, ite_self]
          exact ⟨rfl, rfl⟩
      · rw [convert_path_nonpath env k _ (by simpa using hk)] at hpv
        injection hpv with h5
        subst h5
        rw [ite_self]
        exact ⟨rfl, rfl⟩
  | .vnull, v1, pv, hg, hv1, hpv => by
      have h3 : Except.ok Value.vnull = Except.ok v1 := hv1
      injection h3 with h4
      subst h4
      rw [goodV_null] at hg
      by_cases hk : containsSub k "path" = true
      · rw [if_pos hk] at hg
        exact absurd hg (by simp)
      · rw [convert_path_nonpath env k _ (by simpa using hk)] at hpv
        injection hpv with h5
        subst h5
        rw [ite_self]
        exact ⟨rfl, rfl⟩
  | .vbool b, v1, pv, hg, hv1, hpv => by
      have h3 : Except.ok (Value.vbool b) = Except.ok v1 := hv1
      injection h3 with h4
      subst h4
      rw [goodV_bool] at hg
      by_cases hk : containsSub k "path" = true
      · rw [if_pos hk] at hg
        exact absurd hg (by simp)
      · rw [convert_path_nonpath env k _ (by simpa using hk)] at hpv
        injection hpv with h5
        subst h5
        rw [ite_self]
        exact ⟨rfl, rfl⟩
  | .vnum n, v1, pv, hg, hv1, hpv => by
      have h3 : Except.ok (Value.vnum n) = Except.ok v1 := hv1
      injection h3 with h4
      subst h4
      rw [goodV_num] at hg
      by_cases hk : containsSub k "path" = true
      · rw [if_pos hk] at hg
        exact absurd hg (by simp)
      · rw [convert_path_nonpath env k _ (by simpa using hk)] at hpv
        injection hpv with h5
        subst h5
        rw [ite_self]
        exact ⟨rfl, rfl⟩
  | .varr xs, v1, pv, hg, hv1, hpv => by
      have h3 : Except.ok (Value.varr xs) = Except.ok v1 := hv1
      injection h3 with h4
      subst h4
      rw [goodV_arr] at hg
      by_cases hk : containsSub k "path" = true
      · rw [if_pos hk] at hg
        exact absurd hg (by simp)
      · rw [convert_path_nonpath env k _ (by simpa using hk)] at hpv
        injection hpv with h5
        subst h5
        rw [ite_self]
        rw [if_neg hk] at hg
        exact ⟨rfl, hg⟩
  | .vnode nm attrs, v1, pv, hg, _, _ => by
      have h : goodV env k (.vnode nm attrs) =
          if containsSub k "path" then false else false := rfl
      rw [h, ite_self] at hg
      exact absurd hg (by simp)
  | .vother s, v1, pv, hg, _, _ => by
      have h : goodV env k (.vother s) =
          if containsSub k "path" then false else false := rfl
      rw [h, ite_self] at hg
      exact absurd hg (by simp)

/-- Round trip, entry-list level. -/
theorem rt_entries (env : Env) :
    ∀ (l : Entries), goodE env l = true → ∀ (r : Entries), packL env l = .ok r →
      canonList (encAttrList r) = canonList l ∧
      (encAttrList r).all (fun p => isJsonV p.2) = true
  | [], _, r, hr => by
      rw [packL_nil] at hr
      injection hr with h4
      subst h4
      exact ⟨rfl, rfl⟩
  | (k, v) :: rest, hg, r, hr => by
      rw [goodE_cons, Bool.and_eq_true] at hg
      rw [packL_cons] at hr
      cases hv1 : packValL env k v with
      | error e => rw [hv1] at hr; exact absurd hr (by simp)
      | ok v1 =>
        rw [hv1] at hr
        dsimp only at hr
        cases hpv : convert_path env k v1 with
        | error e => rw [hpv] at hr; exact absurd hr (by simp)
        | ok pv =>
          rw [hpv] at hr
          dsimp only at hr
          cases htl : packL env rest with
          | error e => rw [htl] at hr; exact absurd hr (by simp)
          | ok tail =>
            rw [htl] at hr
            have h3 : Except.ok ((k, if truthy pv then pv else v1) :: tail)
                = Except.ok r := hr
            injection h3 with h4
            subst h4
            have ihv := rt_val env k v v1 pv hg.1 hv1 hpv
            have ihe := rt_entries env rest hg.2 tail htl
            rw [encAttrList_cons, canonList_cons]
            by_cases hp : privName k = true
            · rw [if_pos hp, if_pos hp]
              exact ⟨ihe.1 , ihe.2⟩
            · rw [if_neg hp, if_neg hp, canonList_cons, if_neg hp]
              constructor
              · rw [ihv.1, ihe.1]
              · rw [List.all_cons, ihv.2, ihe.2]
                rfl
end

/-- Claim C1 amended: for a JSON-representable nested mapping `M`, whenever
path normalization succeeds with `N` and `pack_dict` decoding of `N` succeeds
with the node tree `t` (decoding fails precisely when a key containing
`"path"` carries a mapping value — see `C1_counterexample`), encoding `t`
succeeds and yields a mapping equal attribute-for-attribute to `N`:
recursively identical modulo attribute order and modulo attributes whose
names start and end with `_`. -/
theorem C1_roundtrip (env : Env) (henv : envWF env = true) (M N : Entries) (t : Value)
    (hwf : wfJE M = true)
    (hN : path_resolve env M = .ok N)
    (ht : packDict env N "" = .ok t) :
    encodeTop t = .ok (processCls t) ∧ canon (processCls t) = canon (.vdict N) := by
  have hwf2 : nodupKeysB M = true ∧ wfJEs M = true := by
    unfold wfJE at hwf
    rw [Bool.and_eq_true] at hwf
    exact hwf
  have hNL : path_resolveL env M = .ok N := by
    unfold path_resolve at hN
    rw [path_resolveAux_eq env M [] hwf2.1 hwf2.2 (fun k2 _ => rfl)] at hN
    cases hres : path_resolveL env M with
    | error e => rw [hres] at hN; exact absurd hN (by simp)
    | ok r =>
      rw [hres] at hN
      dsimp only at hN
      rw [List.nil_append] at hN
      rw [hN]
  have hgood := pathResolved_goodE env henv M hwf2.1 hwf2.2 N hNL
  have hAL : ∃ A, packL env N = .ok A ∧ t = .vnode "" A := by
    unfold packDict at ht
    rw [packAux_eq env N [] hgood.2.1 hgood.1 (fun k2 _ => rfl)] at ht
    cases hres : packL env N with
    | error e => rw [hres] at ht; exact absurd ht (by simp)
    | ok A =>
      rw [hres] at ht
      dsimp only at ht
      rw [List.nil_append] at ht
      have h3 : Except.ok (Value.vnode (capitalizeStr "") A) = Except.ok t := ht
      injection h3 with h4
      exact ⟨A, rfl, h4.symm⟩
  obtain ⟨A, hA, htA⟩ := hAL
  subst htA
  have hrt := rt_entries env N hgood.1 A hA
  have hjson : isJsonV (processCls (.vnode "" A)) = true := by
    rw [processCls_node, isJsonV_dict, isJsonEs_eq_all,
      perm_all _ _ (sortK_perm (encAttrList A)) _]
    exact hrt.2
  constructor
  · rw [encodeTop_eq, if_pos hjson]
  · rw [processCls_node]
    exact canon_sort_encode A N hrt.1 hgood.2.1

/-- As universally stated, claim C1 is false: a key containing `"path"` whose
value is a mapping survives path normalization untouched (mappings recurse),
but `pack_dict` then applies the processor to the freshly built node, and
`Path(node)` raises `TypeError` — decode fails, so the round trip does not
exist for this `M`. -/
theorem C1_counterexample :
    wfJE [("mypath", Value.vdict [("x", Value.vnum 1)])] = true ∧
    path_resolve envD [("mypath", .vdict [("x", .vnum 1)])]
        = .ok [("mypath", .vdict [("x", .vnum 1)])] ∧
    packDict envD [("mypath", .vdict [("x", .vnum 1)])] "" = .error .typeError :=
  ⟨rfl, rfl, rfl⟩

/-- Witness for the amended C1 on the specification's concrete scenario. -/
theorem C1_witness :
    envWF envD = true ∧ wfJE M0 = true ∧
    path_resolve envD M0 = .ok N0 ∧
    packDict envD N0 "" = .ok t0 ∧
    (encodeTop t0 = .ok (processCls t0) ∧ canon (processCls t0) = canon (.vdict N0)) :=
  ⟨by decide, rfl, rfl, rfl, C1_roundtrip envD (by decide) M0 N0 t0 rfl rfl rfl⟩
